import Mathlib

/-! MarkSense — formal model of the anchoring, highlighting and chunking core.

A shallow embedding of the MarkSense browser extension's core text-anchoring
engine (`Anchor.serializeRange`, `Anchor.findMatch`, `Anchor.highlightAt`,
`Anchor.removeHighlight`) and of the text chunking utility
(`Chunking.chunkText`), translated from the JavaScript sources.

Modelling conventions:
* JavaScript strings are modelled as `List Char` (`Str`); `String.substring`,
  `slice`, `indexOf`, `trim` are modelled by the corresponding list operations.
* The DOM is a rose tree `DNode` of element nodes (tag, class, children) and
  text nodes.  Live node references are modelled by paths (lists of child
  indices) from the document root.
* JavaScript numbers are IEEE doubles; the similarity scores computed by
  `findMatch` are ratios of small integers and are modelled by exact,
  unreduced fractions (`Score`), compared by cross-multiplication.
* Fallible operations return `Option`/`Except`; a caught DOM exception that
  the source converts into a `null`/`false` return is modelled by the
  corresponding `none`/`false` result.
-/

/-- JavaScript strings, modelled as lists of characters. -/
abbrev Str := List Char

/-- A DOM node reference: the list of child indices from the document root. -/
abbrev DomPath := List Nat

/-- A DOM node: an element (tag name, class attribute, children) or a text
node carrying its character data. -/
inductive DNode where
  | text (s : Str)
  | elem (tag : String) (cls : String) (children : List DNode)
deriving Repr

mutual

/-- Decidable equality of DOM nodes (the derive handler does not support the
nested inductive). -/
def DNode.decEq : (a b : DNode) → Decidable (a = b)
  | .text s, .text s' =>
    match List.hasDecEq s s' with
    | isTrue h => isTrue (by rw [h])
    | isFalse h => isFalse (by intro hh; cases hh; exact h rfl)
  | .text _, .elem _ _ _ => isFalse nofun
  | .elem _ _ _, .text _ => isFalse nofun
  | .elem t c cs, .elem t' c' cs' =>
    match String.decEq t t', String.decEq c c', DNode.decEqList cs cs' with
    | isTrue h1, isTrue h2, isTrue h3 => isTrue (by rw [h1, h2, h3])
    | isFalse h1, _, _ => isFalse (by intro hh; cases hh; exact h1 rfl)
    | _, isFalse h2, _ => isFalse (by intro hh; cases hh; exact h2 rfl)
    | _, _, isFalse h3 => isFalse (by intro hh; cases hh; exact h3 rfl)

/-- Decidable equality of DOM node lists. -/
def DNode.decEqList : (a b : List DNode) → Decidable (a = b)
  | [], [] => isTrue rfl
  | [], _ :: _ => isFalse nofun
  | _ :: _, [] => isFalse nofun
  | a :: l, a' :: l' =>
    match DNode.decEq a a', DNode.decEqList l l' with
    | isTrue h1, isTrue h2 => isTrue (by rw [h1, h2])
    | isFalse h1, _ => isFalse (by intro hh; cases hh; exact h1 rfl)
    | _, isFalse h2 => isFalse (by intro hh; cases hh; exact h2 rfl)

end

instance : DecidableEq DNode := DNode.decEq

/-- `s.substring(a, b)` for `a ≤ b` (the only way the sources call it):
characters at positions `a ≤ i < b`, clamped to the string length. -/
def substring (s : Str) (a b : Nat) : Str := (s.drop a).take (b - a)

/-- `s.trim().length === 0`: the string is empty or all-whitespace. -/
def isWhitespaceStr (s : Str) : Bool := s.all Char.isWhitespace

/-- `s.trim()`: strip leading and trailing whitespace. -/
def trimStr (s : Str) : Str :=
  ((s.dropWhile Char.isWhitespace).reverse.dropWhile Char.isWhitespace).reverse

/-- `s.slice(-n)`: the last `n` characters (the sources only call it with the
positive context length 40). -/
def lastN (s : Str) (n : Nat) : Str := s.drop (s.length - n)

/-- The concatenation of a list of strings. -/
def joinStr (l : List Str) : Str := l.foldr (· ++ ·) []

mutual

/-- The number of nodes of a DOM tree (used only to bound walker fuel). -/
def DNode.size : DNode → Nat
  | .text _ => 1
  | .elem _ _ cs => 1 + DNode.sizeList cs

/-- The number of nodes of a sibling list. -/
def DNode.sizeList : List DNode → Nat
  | [] => 0
  | c :: rest => DNode.size c + DNode.sizeList rest

end

mutual

/-- `node.textContent`: the concatenation of all text data in the subtree. -/
def textContent : DNode → Str
  | .text s => s
  | .elem _ _ cs => textContentList cs

/-- `textContent` of a list of sibling nodes, in order. -/
def textContentList : List DNode → Str
  | [] => []
  | c :: rest => textContent c ++ textContentList rest

end

/-- Look up the node at a path (`none` models a dangling reference). -/
def getNode (doc : DNode) (p : DomPath) : Option DNode :=
  match p with
  | [] => some doc
  | i :: p' =>
    match doc with
    | .text _ => none
    | .elem _ _ cs =>
      match cs[i]? with
      | some c => getNode c p'
      | none => none

mutual

/-- `Anchor._getTextNodes`, the TreeWalker traversal, at a single child node
(with its parent's tag and its own path): a text node is kept unless it is
empty/whitespace-only or its parent element is a SCRIPT or STYLE tag; an
element contributes its descendant text nodes. -/
def collectTextNode (parentTag : String) (path : DomPath) (i : Nat) :
    DNode → List (DomPath × Str)
  | .text s =>
    if !isWhitespaceStr s && parentTag ≠ "SCRIPT" && parentTag ≠ "STYLE"
    then [(path ++ [i], s)] else []
  | .elem t _ cs => collectTextNodes t (path ++ [i]) 0 cs

/-- The TreeWalker traversal over a sibling list, in document order.  Each
node is returned with its path and its text. -/
def collectTextNodes (parentTag : String) (path : DomPath) (i : Nat) :
    List DNode → List (DomPath × Str)
  | [] => []
  | c :: rest =>
    collectTextNode parentTag path i c ++ collectTextNodes parentTag path (i + 1) rest

end

namespace Anchor

/-- `Anchor._getTextNodes(document.body)`: text-node descendants of the root
element (the root itself is an element and is not a text node). -/
def getTextNodes (doc : DNode) : List (DomPath × Str) :=
  match doc with
  | .text _ => []
  | .elem t _ cs => collectTextNodes t [] 0 cs

/-- The flattened text view built by `findMatch`: the concatenation of the
collected text nodes' data, in document order. -/
def fullTextOf (doc : DNode) : Str := joinStr ((getTextNodes doc).map Prod.snd)

/-- The `nodeMap` built by `findMatch`: each collected text node with its
half-open `[start, end)` character range inside the flattened text. -/
def buildNodeMap (start : Nat) : List (DomPath × Str) → List (DomPath × Nat × Nat)
  | [] => []
  | (p, s) :: rest => (p, start, start + s.length) :: buildNodeMap (start + s.length) rest

/-- The node map of a document, starting at position 0. -/
def nodeMapOf (doc : DNode) : List (DomPath × Nat × Nat) := buildNodeMap 0 (getTextNodes doc)

/-- The `for (const mapping of nodeMap)` search in `findMatch`: the first
mapping whose range contains the position, together with the local offset. -/
def findNodeFor : List (DomPath × Nat × Nat) → Nat → Option (DomPath × Nat)
  | [], _ => none
  | (p, s, e) :: rest, qi =>
    if s ≤ qi ∧ qi < e then some (p, qi - s) else findNodeFor rest qi

end Anchor

/-- An exact, unreduced fraction `num / den`, modelling the floating-point
similarity scores of `findMatch`.  All scores produced by the sources are
ratios of small naturals (plus the `-1` sentinel), for which exact rational
comparison agrees with the double comparison performed by JavaScript. -/
structure Score where
  num : Int
  den : Nat
deriving Repr, DecidableEq

/-- `a < b` on fractions with positive denominators, by cross-multiplication. -/
def Score.ltb (a b : Score) : Bool := a.num * (b.den : Int) < b.num * (a.den : Int)

/-- `a + b` on fractions. -/
def Score.add (a b : Score) : Score := ⟨a.num * b.den + b.num * a.den, a.den * b.den⟩

/-- The rational value of a fraction. -/
def Score.val (a : Score) : ℚ := (a.num : ℚ) / (a.den : ℚ)

/-- The number of positions (counted from the start) at which the two strings
hold identical characters — the loop of `_calculateSimilarity`. -/
def countMatches (s1 s2 : Str) : Nat := (s1.zip s2).countP (fun pr => pr.1 == pr.2)

/-- The portable anchor `{ quote, prefix, suffix }` produced by
`serializeRange` (the source's `prefix`/`suffix` fields are named
`pre`/`suf` here). -/
structure Anchor where
  quote : Str
  pre : Str
  suf : Str
deriving Repr, DecidableEq

namespace Anchor

/-- The ephemeral match `{ node, offset, length }` returned by `findMatch`;
`node` is the path of a text node. -/
structure Match where
  node : DomPath
  offset : Nat
  length : Nat
deriving Repr, DecidableEq

/-- `Anchor._calculateSimilarity(str1, str2)`: `0` if either string is empty
(the `!str1 || !str2` guard), otherwise the number of positionally identical
characters divided by the longer length. -/
def calculateSimilarity (str1 str2 : Str) : Score :=
  if str1 = [] ∨ str2 = [] then ⟨0, 1⟩
  else ⟨countMatches str1 str2, max str1.length str2.length⟩

/-- The score `findMatch` computes for an occurrence of the quote at flat
position `qi`: context similarity of the preceding `prefix.length` characters
plus context similarity of the following `suffix.length` characters, each
component skipped (contributing 0) when the recorded string is empty.
`qi - pre.length` is truncated natural subtraction, matching the source's
`Math.max(0, quoteIndex - prefix.length)`. -/
def scoreAt (full pre suf quote : Str) (qi : Nat) : Score :=
  let contextBefore := substring full (qi - pre.length) qi
  let contextAfter := substring full (qi + quote.length) (qi + quote.length + suf.length)
  Score.add
    (if pre ≠ [] then calculateSimilarity contextBefore pre else ⟨0, 1⟩)
    (if suf ≠ [] then calculateSimilarity contextAfter suf else ⟨0, 1⟩)

/-- The positions enumerated by the `indexOf`/`searchStart = quoteIndex + 1`
loop of `findMatch`: every position at which the quote occurs as a plain
substring of the flattened text, in increasing order. -/
def occurrences (full quote : Str) : List Nat :=
  (List.range (full.length + 1)).filter (fun i => quote.isPrefixOf (full.drop i))

/-- One iteration of the occurrence loop of `findMatch`: update the best match
and best score when this occurrence's score strictly exceeds the best so far
(`score > bestScore`); when no node-map entry covers the position the source
leaves `bestMatch` unchanged (while still raising `bestScore`). -/
def findMatchStep (full pre suf quote : Str) (nm : List (DomPath × Nat × Nat))
    (st : Option Match × Score) (qi : Nat) : Option Match × Score :=
  let score := scoreAt full pre suf quote qi
  if Score.ltb st.2 score then
    (match findNodeFor nm qi with
     | some (p, off) => some ⟨p, off, quote.length⟩
     | none => st.1,
     score)
  else st

/-- `Anchor.findMatch({quote, prefix, suffix})`: `null` for an empty quote,
otherwise the best-scoring occurrence of the quote in the flattened text,
mapped back to its owning text node and local offset.  `bestScore` starts at
`-1`, so the first occurrence always becomes the initial best. -/
def findMatch (doc : DNode) (a : Anchor) : Option Match :=
  if a.quote = [] then none
  else
    let tns := getTextNodes doc
    let full := joinStr (tns.map Prod.snd)
    let nm := buildNodeMap 0 tns
    ((occurrences full a.quote).foldl (findMatchStep full a.pre a.suf a.quote nm)
      (none, ⟨-1, 1⟩)).1

end Anchor

/-! ## DOM mutation: highlighting and unwrapping -/

/-- Replace the node at a (non-root) path by a list of sibling nodes inside
its parent — the node splice performed by `Range.surroundContents`, which
splits the surrounded text node into before/wrapper/after. -/
def spliceAt (doc : DNode) (p : DomPath) (repl : List DNode) : Option DNode :=
  match p with
  | [] => none
  | [j] =>
    match doc with
    | .text _ => none
    | .elem t c cs =>
      if j < cs.length then some (.elem t c (cs.take j ++ repl ++ cs.drop (j + 1))) else none
  | j :: p' =>
    match doc with
    | .text _ => none
    | .elem t c cs =>
      match cs[j]? with
      | some child => (spliceAt child p' repl).map fun child' => .elem t c (cs.set j child')
      | none => none

/-- Insert a text node in front of a sibling list unless it is empty. -/
def mkTextCons (s : Str) (l : List DNode) : List DNode :=
  if s = [] then l else .text s :: l

/-- Merge maximal runs of adjacent text siblings into single text nodes and
drop empty text nodes — the sibling-level effect of `Node.normalize()`. -/
def mergeTextRuns : List DNode → List DNode
  | [] => []
  | .text s :: rest =>
    match mergeTextRuns rest with
    | .text s' :: r => mkTextCons (s ++ s') r
    | r => mkTextCons s r
  | .elem t c cs :: rest => .elem t c cs :: mergeTextRuns rest

mutual

/-- `Node.normalize()`: throughout the subtree, remove empty text nodes and
merge adjacent text siblings. -/
def normalizeNode : DNode → DNode
  | .text s => .text s
  | .elem t c cs => .elem t c (mergeTextRuns (normalizeNodeList cs))

/-- `normalizeNode` applied to each node of a sibling list. -/
def normalizeNodeList : List DNode → List DNode
  | [] => []
  | c :: rest => normalizeNode c :: normalizeNodeList rest

end

/-- Unwrap the element at a (non-root) path: move its children into its
parent in place, remove the now-empty element, and `normalize()` the parent —
the mutation performed by `Anchor.removeHighlight`. -/
def removeAt (doc : DNode) (p : DomPath) : Option DNode :=
  match p with
  | [] => none
  | [j] =>
    match doc with
    | .text _ => none
    | .elem t c cs =>
      match cs[j]? with
      | some (.elem _ _ sc) =>
        some (normalizeNode (.elem t c (cs.take j ++ sc ++ cs.drop (j + 1))))
      | _ => none
  | j :: p' =>
    match doc with
    | .text _ => none
    | .elem t c cs =>
      match cs[j]? with
      | some child => (removeAt child p').map fun child' => .elem t c (cs.set j child')
      | none => none

/-- A live reference to a created highlight span.  `parent` models the
span's `parentNode` pointer: `some p` while the span sits at path `p` in the
document, `none` once it has been removed (`removeChild` nulls it). -/
structure Marker where
  node : DNode
  parent : Option DomPath
deriving Repr, DecidableEq

namespace Anchor

/-- `Anchor.highlightAt(match, quote, cssClass)` (content-script version):
`null` for a null match or empty class; requires the matched node to be a
text node; a text mismatch between `quote` and the actual substring only
logs a warning and highlighting proceeds; builds the range
`[offset, offset + length)` on the node (`length` falls back to
`quote.length` when `match.length` is `0`, the JS `||`); a range end past the
node's data makes `setEnd` throw `IndexSizeError`, which is caught and
yields `null`; otherwise `surroundContents` splits the text node into
before / span / after and the new span is returned. -/
def highlightAt (doc : DNode) (m : Option Match) (quote : Str) (cssClass : String) :
    Option (DNode × Marker) :=
  match m with
  | none => none
  | some mt =>
    if cssClass = "" then none
    else
      match getNode doc mt.node with
      | some (.text t) =>
        let offset := mt.offset
        let len := if mt.length = 0 then quote.length else mt.length
        if offset + len ≤ t.length then
          let span : DNode := .elem "SPAN" cssClass [.text (substring t offset (offset + len))]
          match spliceAt doc mt.node
              [.text (t.take offset), span, .text (t.drop (offset + len))] with
          | some doc1 =>
            some (doc1, ⟨span, some (mt.node.dropLast ++ [mt.node.getLast?.getD 0 + 1])⟩)
          | none => none
        else none
      | _ => none

/-- `Anchor.removeHighlight(highlightSpan)`: `false` when the span has no
parent (already removed); otherwise move the span's children into the parent
in place, remove the span, normalize the parent, detach the reference and
return `true`.  A DOM failure is caught and returns `false`. -/
def removeHighlight (doc : DNode) (m : Marker) : Bool × DNode × Marker :=
  match m.parent with
  | none => (false, doc, m)
  | some p =>
    match removeAt doc p with
    | some doc' => (true, doc', ⟨m.node, none⟩)
    | none => (false, doc, m)

end Anchor

/-! ## Range serialization -/

/-- A DOM `Range` as read by `serializeRange`: its `collapsed` flag, its
`toString()` text, and its start/end containers (as paths) with offsets. -/
structure DRange where
  collapsed : Bool
  str : Str
  startPath : DomPath
  startOffset : Nat
  endPath : DomPath
  endOffset : Nat
deriving Repr

/-- `textContent` of the node at a path — empty for a dangling reference
(live DOM references are never dangling). -/
def textContentAt (doc : DNode) (p : DomPath) : Str :=
  match getNode doc p with
  | some n => textContent n
  | none => []

/-- The `_getTextBefore` walker, on reversed paths: while the accumulated
text is shorter than `maxLen`, step to the previous sibling (prepending its
`textContent`) or, if none, to the parent (the walk past the modelled root
leaves the loop).  `fuel` is only a termination device; every call provides
more fuel than the walk, which strictly descends the sibling/ancestor order,
can consume. -/
def getTextBeforeGo (doc : DNode) (maxLen : Nat) : Nat → DomPath → Str → Str
  | 0, _, text => text
  | _ + 1, [], text => text
  | fuel + 1, j :: q, text =>
    if maxLen ≤ text.length then text
    else if j = 0 then getTextBeforeGo doc maxLen fuel q text
    else getTextBeforeGo doc maxLen fuel ((j - 1) :: q)
      (textContentAt doc ((j - 1) :: q).reverse ++ text)

/-- `Anchor._getTextBefore(node, maxLen)`: accumulate preceding text by the
sibling/parent walk, then keep the last `maxLen` characters (`slice(-maxLen)`). -/
def getTextBefore (doc : DNode) (p : DomPath) (maxLen : Nat) : Str :=
  lastN (getTextBeforeGo doc maxLen (DNode.size doc + p.length + 1) p.reverse []) maxLen

/-- The `_getTextAfter` walker, on reversed paths: step to the next sibling
(appending its `textContent`) or, if none, to the parent.  `fuel` as in
`getTextBeforeGo`. -/
def getTextAfterGo (doc : DNode) (maxLen : Nat) : Nat → DomPath → Str → Str
  | 0, _, text => text
  | _ + 1, [], text => text
  | fuel + 1, j :: q, text =>
    if maxLen ≤ text.length then text
    else
      match getNode doc q.reverse with
      | some (.elem _ _ cs) =>
        if j + 1 < cs.length then
          getTextAfterGo doc maxLen fuel ((j + 1) :: q)
            (text ++ textContentAt doc ((j + 1) :: q).reverse)
        else getTextAfterGo doc maxLen fuel q text
      | _ => getTextAfterGo doc maxLen fuel q text

/-- `Anchor._getTextAfter(node, maxLen)`: accumulate following text by the
sibling/parent walk, then keep the first `maxLen` characters (`slice(0, maxLen)`). -/
def getTextAfter (doc : DNode) (p : DomPath) (maxLen : Nat) : Str :=
  (getTextAfterGo doc maxLen (DNode.size doc + p.length + 1) p.reverse []).take maxLen

namespace Anchor

/-- `Anchor.serializeRange(range, ctxLen)`: throws (`Except.error`) for a
null or collapsed range and for a range whose text is empty; otherwise the
quote is the range's text, the prefix is the last `ctxLen` characters before
`startOffset` inside the start container when that is a text node (else the
`_getTextBefore` walk), and the suffix is the first `ctxLen` characters after
`endOffset` inside the end container when that is a text node (else the
`_getTextAfter` walk). -/
def serializeRange (doc : DNode) (range : Option DRange) (ctxLen : Nat) :
    Except String Anchor :=
  match range with
  | none => .error "Invalid or collapsed range"
  | some r =>
    if r.collapsed then .error "Invalid or collapsed range"
    else if r.str = [] then .error "Empty selection"
    else
      let pre :=
        match getNode doc r.startPath with
        | some (.text t) => lastN (substring t 0 r.startOffset) ctxLen
        | _ => getTextBefore doc r.startPath ctxLen
      let suf :=
        match getNode doc r.endPath with
        | some (.text t) => (t.drop r.endOffset).take ctxLen
        | _ => getTextAfter doc r.endPath ctxLen
      .ok ⟨r.str, pre, suf⟩

end Anchor

/-! ## Text chunking -/

/-- The index of the last `'\n'` in a string, if any. -/
def lastIdxOfNewline : Str → Option Nat
  | [] => none
  | c :: rest =>
    match lastIdxOfNewline rest with
    | some k => some (k + 1)
    | none => if c = '\n' then some 0 else none

namespace Chunking

/-- A sentence terminator for the regex `[.!?]`. -/
def isTermCh (c : Char) : Bool := c == '.' || c == '!' || c == '?'

/-- One step bound of the global-regex scan below; `fuel` only bounds the
iteration count and every call supplies at least the string's length, which
the scan, shortening its input on every step, can never exhaust. -/
def sentMatchesGo : Nat → Str → List Str
  | 0, _ => []
  | fuel + 1, s =>
    let s1 := s.dropWhile isTermCh
    let t1 := s1.takeWhile (fun c => !isTermCh c)
    let rest1 := s1.dropWhile (fun c => !isTermCh c)
    if t1 = [] then []
    else if rest1 = [] then []
    else (t1 ++ rest1.takeWhile isTermCh) :: sentMatchesGo fuel (rest1.dropWhile isTermCh)

/-- `paragraph.match(/[^.!?]+[.!?]+/g)`: the maximal blocks of one-or-more
non-terminators followed by one-or-more terminators, scanned left to right.
A match cannot start at a terminator, so leading terminators are skipped, and
a trailing run with no terminator after it is not part of any match. -/
def sentMatches (s : Str) : List Str := sentMatchesGo s.length s

/-- The first match of `/\n\s*\n/` in the string, as
`(text before the match, text after the match)`; `none` when the pattern
does not occur.  The greedy `\s*` makes the match end at the last newline of
the whitespace run following the first newline. -/
def findSplit : Str → Option (Str × Str)
  | [] => none
  | c :: rest =>
    if c = '\n' then
      match lastIdxOfNewline (rest.takeWhile Char.isWhitespace) with
      | some k => some ([], rest.drop (k + 1))
      | none => (findSplit rest).map fun pr => (c :: pr.1, pr.2)
    else (findSplit rest).map fun pr => (c :: pr.1, pr.2)

/-- `text.split(/\n\s*\n/)`: split at each leftmost match of the pattern.
`fuel` as in `sentMatchesGo`. -/
def splitParasGo : Nat → Str → List Str
  | 0, s => [s]
  | fuel + 1, s =>
    match findSplit s with
    | none => [s]
    | some (pre, post) => pre :: splitParasGo fuel post

/-- `text.split(/\n\s*\n/)`. -/
def splitParas (s : Str) : List Str := splitParasGo s.length s

/-- `text.split(/\s+/)` on trimmed input: the maximal runs of
non-whitespace characters.  (On untrimmed input the JS split would also
yield one leading empty string; the source only splits trimmed strings,
where the two agree.)  `fuel` as in `sentMatchesGo`. -/
def splitWSGo : Nat → Str → List Str
  | 0, _ => []
  | fuel + 1, s =>
    let s1 := s.dropWhile Char.isWhitespace
    if s1 = [] then []
    else s1.takeWhile (fun c => !c.isWhitespace)
      :: splitWSGo fuel (s1.dropWhile (fun c => !c.isWhitespace))

/-- `text.split(/\s+/)` (trimmed input). -/
def splitWS (s : Str) : List Str := splitWSGo s.length s

/-- The hard character cut
`for (let i = 0; i < word.length; i += maxChars) push(word.substring(i, i + maxChars))`.
`fuel` as in `sentMatchesGo`; the source never reaches this loop with
`maxChars = 0` (JS would not terminate). -/
def hardCutGo : Nat → Str → Nat → List Str
  | 0, _, _ => []
  | fuel + 1, w, m =>
    if w = [] ∨ m = 0 then []
    else w.take m :: hardCutGo fuel (w.drop m) m

/-- The `maxChars`-sized consecutive slices of an oversized word. -/
def hardCut (w : Str) (m : Nat) : List Str := hardCutGo w.length w m

/-- `if (currentChunk.trim().length > 0) chunks.push(currentChunk.trim())`,
the flush used by all three packing loops.  (The source resets
`currentChunk = ''` only inside the guard; every non-empty `currentChunk` it
builds has a non-empty trim, so the two are equivalent.) -/
def flushChunk (chunks : List Str) (current : Str) : List Str :=
  if trimStr current = [] then chunks else chunks ++ [trimStr current]

/-- One iteration of the word loop of `Chunking._splitByWords`: an oversized
word flushes the current chunk and is hard-cut; otherwise the word is packed
greedily with single-space joins, flushing when the chunk would overflow. -/
def splitByWordsStep (maxChars : Nat) (st : List Str × Str) (word : Str) :
    List Str × Str :=
  if word.length > maxChars then
    (flushChunk st.1 st.2 ++ hardCut word maxChars, [])
  else
    let potential := if st.2 = [] then word else st.2 ++ ' ' :: word
    if potential.length > maxChars then (flushChunk st.1 st.2, word) else (st.1, potential)

/-- `Chunking._splitByWords(text, maxChars)`. -/
def splitByWords (text : Str) (maxChars : Nat) : List Str :=
  let st := (splitWS text).foldl (splitByWordsStep maxChars) ([], [])
  flushChunk st.1 st.2

/-- One iteration of the sentence loop of `Chunking._splitLargeParagraph`:
an oversized sentence flushes the current chunk and is split by words;
otherwise the sentence is packed greedily with single-space joins. -/
def splitLargeStep (maxChars : Nat) (st : List Str × Str) (sentence : Str) :
    List Str × Str :=
  let ts := trimStr sentence
  if ts.length > maxChars then
    (flushChunk st.1 st.2 ++ splitByWords ts maxChars, [])
  else
    let potential := if st.2 = [] then ts else st.2 ++ ' ' :: ts
    if potential.length > maxChars then (flushChunk st.1 st.2, ts) else (st.1, potential)

/-- `Chunking._splitLargeParagraph(paragraph, maxChars)`: split into sentence
matches (`match(...) || [paragraph]` — the whole paragraph when there is no
sentence terminator), then pack sentences greedily. -/
def splitLargeParagraph (paragraph : Str) (maxChars : Nat) : List Str :=
  let sentences := match sentMatches paragraph with
    | [] => [paragraph]
    | l => l
  let st := sentences.foldl (splitLargeStep maxChars) ([], [])
  flushChunk st.1 st.2

/-- One iteration of the paragraph loop of `Chunking.chunkText`: an
oversized paragraph flushes the current chunk and is split; otherwise the
paragraph is packed greedily with blank-line (`"\n\n"`) joins. -/
def chunkTextStep (maxChars : Nat) (st : List Str × Str) (paragraph : Str) :
    List Str × Str :=
  let tp := trimStr paragraph
  if tp.length > maxChars then
    (flushChunk st.1 st.2 ++ splitLargeParagraph tp maxChars, [])
  else
    let potential := if st.2 = [] then tp else st.2 ++ '\n' :: '\n' :: tp
    if potential.length > maxChars then (flushChunk st.1 st.2, tp) else (st.1, potential)

/-- `Chunking.chunkText(text, maxChars)`: empty for empty/whitespace-only
input; split into paragraphs on blank lines, dropping whitespace-only
paragraphs; pack paragraphs greedily, splitting any oversized paragraph by
sentences, then words, then hard character cuts. -/
def chunkText (text : Str) (maxChars : Nat) : List Str :=
  if isWhitespaceStr text then []
  else
    let paragraphs := (splitParas text).filter (fun p => trimStr p ≠ [])
    let st := paragraphs.foldl (chunkTextStep maxChars) ([], [])
    flushChunk st.1 st.2

end Chunking


/-- Modelled from the spec: the end-aligned positional similarity — "count of
identical characters at identical offsets, from the end" — that the spec's
scoring sentence prescribes for the prefix component, normalized like the
code's similarity.  It is compared against the code's `calculateSimilarity`,
which aligns both strings from the start. -/
def specEndAlignedSimilarity (str1 str2 : Str) : Score :=
  if str1 = [] ∨ str2 = [] then ⟨0, 1⟩
  else ⟨countMatches str1.reverse str2.reverse, max str1.length str2.length⟩

/-! ## General lemmas -/

theorem joinStr_append (l1 l2 : List Str) : joinStr (l1 ++ l2) = joinStr l1 ++ joinStr l2 := by
  induction l1 with
  | nil => simp [joinStr]
  | cons h t ih => simp only [joinStr, List.foldr] at ih ⊢; simp [ih]

theorem textContentList_append (l1 l2 : List DNode) :
    textContentList (l1 ++ l2) = textContentList l1 ++ textContentList l2 := by
  induction l1 with
  | nil => simp [textContentList]
  | cons h t ih => simp [textContentList, ih]

/-- `findMatch` on a non-empty quote is the occurrence fold over the
flattened text. -/
theorem Anchor.findMatch_eq (doc : DNode) (a : Anchor) (h : a.quote ≠ []) :
    Anchor.findMatch doc a =
      ((Anchor.occurrences (Anchor.fullTextOf doc) a.quote).foldl
        (Anchor.findMatchStep (Anchor.fullTextOf doc) a.pre a.suf a.quote (Anchor.nodeMapOf doc))
        (none, ⟨-1, 1⟩)).1 := by
  unfold Anchor.findMatch
  rw [if_neg h]
  rfl

/-! ### Claim C6 -/

/-- C6: `Anchor.findMatch` returns `null` — and, being total here, never
throws — when the quote is empty or when the quote has zero occurrences in
the document's flattened text, and `Anchor.highlightAt` returns `null` when
its match argument is `null`. -/
theorem findMatch_absence_null (doc : DNode) (a : Anchor) (q : Str) (cls : String) :
    (a.quote = [] → Anchor.findMatch doc a = none) ∧
    (Anchor.occurrences (Anchor.fullTextOf doc) a.quote = [] → Anchor.findMatch doc a = none) ∧
    Anchor.highlightAt doc none q cls = none := by
  refine ⟨fun h => by simp [Anchor.findMatch, h], fun h => ?_, rfl⟩
  by_cases hq : a.quote = []
  · simp [Anchor.findMatch, hq]
  · rw [Anchor.findMatch_eq doc a hq, h]
    rfl

/-- C6 witness. -/
theorem findMatch_absence_null_witness :
    Anchor.findMatch (.elem "BODY" "" [.text "ab".data]) ⟨[], "a".data, []⟩ = none ∧
    Anchor.findMatch (.elem "BODY" "" [.text "ab".data]) ⟨"zz".data, [], []⟩ = none ∧
    Anchor.highlightAt (.elem "BODY" "" [.text "ab".data]) none "a".data "hl" = none := by
  refine ⟨(findMatch_absence_null _ ⟨[], "a".data, []⟩ "a".data "hl").1 rfl,
    (findMatch_absence_null _ ⟨"zz".data, [], []⟩ "a".data "hl").2.1 (by decide),
    (findMatch_absence_null (.elem "BODY" "" [.text "ab".data]) ⟨"zz".data, [], []⟩
      "a".data "hl").2.2⟩

/-! ### Claim C7 -/

/-- C7: `Anchor.serializeRange` fails with an error exactly when its input
range is null, collapsed, or stringifies to the empty string; for every other
range it returns an anchor whose quote is the (non-empty) text of the range. -/
theorem serializeRange_error_conditions (doc : DNode) (ctxLen : Nat) :
    (Anchor.serializeRange doc none ctxLen = .error "Invalid or collapsed range") ∧
    (∀ r : DRange, r.collapsed = true →
      Anchor.serializeRange doc (some r) ctxLen = .error "Invalid or collapsed range") ∧
    (∀ r : DRange, r.collapsed = false → r.str = [] →
      Anchor.serializeRange doc (some r) ctxLen = .error "Empty selection") ∧
    (∀ r : DRange, r.collapsed = false → r.str ≠ [] →
      ∃ a : Anchor, Anchor.serializeRange doc (some r) ctxLen = .ok a ∧
        a.quote = r.str ∧ a.quote ≠ []) := by
  refine ⟨rfl, fun r h => by simp [Anchor.serializeRange, h], fun r h h2 => by
    simp [Anchor.serializeRange, h, h2], fun r h h2 => ⟨⟨r.str, ?_, ?_⟩, ?_, rfl, h2⟩⟩
  · exact
      match getNode doc r.startPath with
      | some (.text t) => lastN (substring t 0 r.startOffset) ctxLen
      | _ => getTextBefore doc r.startPath ctxLen
  · exact
      match getNode doc r.endPath with
      | some (.text t) => (t.drop r.endOffset).take ctxLen
      | _ => getTextAfter doc r.endPath ctxLen
  · simp [Anchor.serializeRange, h, h2]

/-- C7 witness. -/
theorem serializeRange_error_conditions_witness :
    (Anchor.serializeRange (.elem "BODY" "" [.text "ab".data]) none 40
      = .error "Invalid or collapsed range") ∧
    (Anchor.serializeRange (.elem "BODY" "" [.text "ab".data])
      (some ⟨true, "a".data, [0], 0, [0], 1⟩) 40 = .error "Invalid or collapsed range") ∧
    (Anchor.serializeRange (.elem "BODY" "" [.text "ab".data])
      (some ⟨false, [], [0], 0, [0], 0⟩) 40 = .error "Empty selection") ∧
    (∃ a : Anchor, Anchor.serializeRange (.elem "BODY" "" [.text "ab".data])
      (some ⟨false, "a".data, [0], 0, [0], 1⟩) 40 = .ok a ∧ a.quote = "a".data ∧ a.quote ≠ []) := by
  obtain ⟨h1, h2, h3, h4⟩ := serializeRange_error_conditions (.elem "BODY" "" [.text "ab".data]) 40
  exact ⟨h1, h2 _ rfl, h3 _ rfl rfl, h4 ⟨false, "a".data, [0], 0, [0], 1⟩ rfl (by decide)⟩

/-! ### Claim C9 -/

/-- C9: content preservation fails in the code: a paragraph longer than
`maxChars` whose trailing sentence fragment has no terminal punctuation
loses that fragment, because `/[^.!?]+[.!?]+/g` never matches it.  At
`"aaaa. bb"` with `maxChars = 6` the chunks are `["aaaa."]`: the
non-whitespace content `bb` of the input is absent from every chunk. -/
theorem chunkText_drops_trailing_fragment :
    Chunking.chunkText "aaaa. bb".data 6 = ["aaaa.".data] ∧
    'b' ∈ "aaaa. bb".data.filter (fun c => !c.isWhitespace) ∧
    'b' ∉ (joinStr (Chunking.chunkText "aaaa. bb".data 6)).filter (fun c => !c.isWhitespace) := by
  refine ⟨by decide, by decide, by decide⟩

/-! ### Score lemmas -/

theorem calculateSimilarity_den_pos (a b : Str) : 0 < (Anchor.calculateSimilarity a b).den := by
  unfold Anchor.calculateSimilarity
  split
  · exact Nat.one_pos
  · rename_i h
    push_neg at h
    simp only []
    have : 0 < a.length := List.length_pos.mpr h.1
    omega

theorem calculateSimilarity_num_nonneg (a b : Str) : 0 ≤ (Anchor.calculateSimilarity a b).num := by
  unfold Anchor.calculateSimilarity
  split
  · exact le_refl 0
  · exact Int.ofNat_nonneg _

theorem scoreAt_den_pos (full pre suf quote : Str) (qi : Nat) :
    0 < (Anchor.scoreAt full pre suf quote qi).den := by
  unfold Anchor.scoreAt Score.add
  simp only []
  have h1 : ∀ x y : Str, 0 < (if x ≠ [] then Anchor.calculateSimilarity y x else ⟨0, 1⟩).den := by
    intro x y
    split
    · exact calculateSimilarity_den_pos _ _
    · exact Nat.one_pos
  exact Nat.mul_pos (h1 pre _) (h1 suf _)

theorem scoreAt_num_nonneg (full pre suf quote : Str) (qi : Nat) :
    0 ≤ (Anchor.scoreAt full pre suf quote qi).num := by
  unfold Anchor.scoreAt Score.add
  simp only []
  have h1 : ∀ x y : Str, 0 ≤ (if x ≠ [] then Anchor.calculateSimilarity y x else ⟨0, 1⟩).num := by
    intro x y
    split
    · exact calculateSimilarity_num_nonneg _ _
    · exact le_refl 0
  have h2 : ∀ x y : Str, 0 ≤ ((if x ≠ [] then Anchor.calculateSimilarity y x else ⟨0, 1⟩).den : Int) := by
    intro x y
    exact Int.ofNat_nonneg _
  exact add_nonneg (mul_nonneg (h1 pre _) (h2 suf _)) (mul_nonneg (h1 suf _) (h2 pre _))

theorem ltb_init_scoreAt (full pre suf quote : Str) (qi : Nat) :
    Score.ltb ⟨-1, 1⟩ (Anchor.scoreAt full pre suf quote qi) = true := by
  have h1 := scoreAt_den_pos full pre suf quote qi
  have h2 := scoreAt_num_nonneg full pre suf quote qi
  simp only [Score.ltb, decide_eq_true_eq]
  have : (0 : Int) < (Anchor.scoreAt full pre suf quote qi).den := by exact_mod_cast h1
  nlinarith

/-! ### findMatch fold lemmas -/

theorem findMatchStep_eq (full pre suf quote : Str) (nm : List (DomPath × Nat × Nat))
    (st : Option Anchor.Match × Score) (qi : Nat) :
    Anchor.findMatchStep full pre suf quote nm st qi =
      if Score.ltb st.2 (Anchor.scoreAt full pre suf quote qi) = true then
        ((match Anchor.findNodeFor nm qi with
          | some (p, off) => some ⟨p, off, quote.length⟩
          | none => st.1), Anchor.scoreAt full pre suf quote qi)
      else st := rfl

theorem foldl_step_no_improve (full pre suf quote : Str) (nm : List (DomPath × Nat × Nat))
    (L : List Nat) (st : Option Anchor.Match × Score)
    (h : ∀ j ∈ L, Score.ltb st.2 (Anchor.scoreAt full pre suf quote j) = false) :
    L.foldl (Anchor.findMatchStep full pre suf quote nm) st = st := by
  induction L with
  | nil => rfl
  | cons j t ih =>
    have hj := h j (List.mem_cons_self _ _)
    have hstep : Anchor.findMatchStep full pre suf quote nm st j = st := by
      rw [findMatchStep_eq, if_neg]
      simp [hj]
    rw [List.foldl_cons, hstep]
    exact ih (fun x hx => h x (List.mem_cons_of_mem _ hx))

theorem foldl_step_keeps_lt (full pre suf quote : Str) (nm : List (DomPath × Nat × Nat))
    (qi : Nat) (L : List Nat) (st : Option Anchor.Match × Score)
    (hlt : Score.ltb st.2 (Anchor.scoreAt full pre suf quote qi) = true)
    (hall : ∀ j ∈ L, Score.ltb (Anchor.scoreAt full pre suf quote j)
      (Anchor.scoreAt full pre suf quote qi) = true) :
    Score.ltb (L.foldl (Anchor.findMatchStep full pre suf quote nm) st).2
      (Anchor.scoreAt full pre suf quote qi) = true := by
  induction L generalizing st with
  | nil => exact hlt
  | cons j t ih =>
    rw [List.foldl_cons]
    refine ih _ ?_ (fun x hx => hall x (List.mem_cons_of_mem _ hx))
    rw [findMatchStep_eq]
    by_cases hc : Score.ltb st.2 (Anchor.scoreAt full pre suf quote j) = true
    · rw [if_pos hc]
      exact hall j (List.mem_cons_self _ _)
    · rw [if_neg hc]
      exact hlt

theorem foldl_step_isSome (full pre suf quote : Str) (nm : List (DomPath × Nat × Nat))
    (L : List Nat) (st : Option Anchor.Match × Score) (h : st.1.isSome) :
    ((L.foldl (Anchor.findMatchStep full pre suf quote nm) st).1).isSome := by
  induction L generalizing st with
  | nil => exact h
  | cons j t ih =>
    rw [List.foldl_cons]
    refine ih _ ?_
    rw [findMatchStep_eq]
    by_cases hc : Score.ltb st.2 (Anchor.scoreAt full pre suf quote j) = true
    · rw [if_pos hc]
      cases hfind : Anchor.findNodeFor nm j with
      | none => simpa [hfind] using h
      | some po => simp [hfind]
    · rw [if_neg hc]
      exact h

theorem fold_origin (full pre suf quote : Str) (nm : List (DomPath × Nat × Nat))
    (L : List Nat) (st : Option Anchor.Match × Score) :
    (L.foldl (Anchor.findMatchStep full pre suf quote nm) st).1 = st.1 ∨
    ∃ qi ∈ L, ∃ p off, Anchor.findNodeFor nm qi = some (p, off) ∧
      (L.foldl (Anchor.findMatchStep full pre suf quote nm) st).1
        = some ⟨p, off, quote.length⟩ := by
  induction L generalizing st with
  | nil => exact Or.inl rfl
  | cons j t ih =>
    rw [List.foldl_cons]
    rcases ih (Anchor.findMatchStep full pre suf quote nm st j) with h | ⟨qi, hqi, p, off, hfind, hres⟩
    · rw [h, findMatchStep_eq]
      by_cases hc : Score.ltb st.2 (Anchor.scoreAt full pre suf quote j) = true
      · rw [if_pos hc]
        cases hfind : Anchor.findNodeFor nm j with
        | none => simp [hfind]
        | some po =>
          right
          exact ⟨j, List.mem_cons_self _ _, po.1, po.2, by rw [hfind], by simp [hfind]⟩
      · rw [if_neg hc]
        exact Or.inl rfl
    · exact Or.inr ⟨qi, List.mem_cons_of_mem _ hqi, p, off, hfind, hres⟩

/-! ### Occurrence and node-map lemmas -/

theorem occurrences_mem (full quote : Str) (qi : Nat) :
    qi ∈ Anchor.occurrences full quote ↔
      qi < full.length + 1 ∧ quote.isPrefixOf (full.drop qi) = true := by
  simp [Anchor.occurrences, List.mem_filter, List.mem_range]

theorem occurrences_sorted (full quote : Str) :
    (Anchor.occurrences full quote).Pairwise (· < ·) :=
  (List.pairwise_lt_range _).filter _

theorem occ_lt_length (full quote : Str) (qi : Nat) (hq : quote ≠ [])
    (hqi : qi ∈ Anchor.occurrences full quote) : qi < full.length := by
  obtain ⟨-, h2⟩ := (occurrences_mem full quote qi).mp hqi
  have hpre := List.isPrefixOf_iff_prefix.mp h2
  have hlen := hpre.length_le
  have : 0 < quote.length := List.length_pos.mpr hq
  simp only [List.length_drop] at hlen
  omega

theorem occ_substring (full quote : Str) (qi : Nat)
    (hqi : qi ∈ Anchor.occurrences full quote) :
    substring full qi (qi + quote.length) = quote := by
  obtain ⟨-, h2⟩ := (occurrences_mem full quote qi).mp hqi
  obtain ⟨rest, hrest⟩ := List.isPrefixOf_iff_prefix.mp h2
  unfold substring
  rw [← hrest]
  simp [List.take_left']

theorem buildNodeMap_covers (tns : List (DomPath × Str)) (start qi : Nat)
    (h1 : start ≤ qi) (h2 : qi < start + (joinStr (tns.map Prod.snd)).length) :
    ∃ p off, Anchor.findNodeFor (Anchor.buildNodeMap start tns) qi = some (p, off) := by
  induction tns generalizing start with
  | nil =>
    exfalso
    simp [joinStr] at h2
    omega
  | cons hd t ih =>
    by_cases hc : qi < start + hd.2.length
    · exact ⟨hd.1, qi - start, by
        unfold Anchor.buildNodeMap Anchor.findNodeFor
        rw [if_pos ⟨h1, hc⟩]⟩
    · push_neg at hc
      obtain ⟨p, off, hfound⟩ := ih (start + hd.2.length) hc (by
        simp only [List.map_cons, joinStr, List.foldr_cons, List.length_append] at h2 ⊢
        omega)
      exact ⟨p, off, by
        unfold Anchor.buildNodeMap Anchor.findNodeFor
        rw [if_neg (by omega)]
        exact hfound⟩

theorem fold_firstArgmax (full pre suf quote : Str) (nm : List (DomPath × Nat × Nat))
    (L : List Nat) (qi : Nat) (hqi : qi ∈ L) (hsorted : L.Pairwise (· < ·))
    (hmax : ∀ j ∈ L, Score.ltb (Anchor.scoreAt full pre suf quote qi)
      (Anchor.scoreAt full pre suf quote j) = false)
    (hbefore : ∀ j ∈ L, j < qi → Score.ltb (Anchor.scoreAt full pre suf quote j)
      (Anchor.scoreAt full pre suf quote qi) = true)
    (p : DomPath) (off : Nat) (hnode : Anchor.findNodeFor nm qi = some (p, off))
    (st : Option Anchor.Match × Score)
    (hst : Score.ltb st.2 (Anchor.scoreAt full pre suf quote qi) = true) :
    (L.foldl (Anchor.findMatchStep full pre suf quote nm) st).1
      = some ⟨p, off, quote.length⟩ := by
  obtain ⟨L1, L2, rfl⟩ := List.append_of_mem hqi
  rw [List.foldl_append, List.foldl_cons]
  have hpair := List.pairwise_append.mp hsorted
  have hL1lt : ∀ j ∈ L1, j < qi := fun j hj => hpair.2.2 j hj qi (List.mem_cons_self _ _)
  have hst1 : Score.ltb (L1.foldl (Anchor.findMatchStep full pre suf quote nm) st).2
      (Anchor.scoreAt full pre suf quote qi) = true :=
    foldl_step_keeps_lt full pre suf quote nm qi L1 st hst
      (fun j hj => hbefore j (by simp [hj]) (hL1lt j hj))
  rw [findMatchStep_eq, if_pos hst1, hnode]
  have hL2 : ∀ j ∈ L2, Score.ltb (Anchor.scoreAt full pre suf quote qi)
      (Anchor.scoreAt full pre suf quote j) = false := fun j hj => hmax j (by simp [hj])
  show (L2.foldl (Anchor.findMatchStep full pre suf quote nm)
    (some ⟨p, off, quote.length⟩, Anchor.scoreAt full pre suf quote qi)).1
      = some ⟨p, off, quote.length⟩
  rw [foldl_step_no_improve full pre suf quote nm L2
    (some ⟨p, off, quote.length⟩, Anchor.scoreAt full pre suf quote qi) hL2]

/-! ### Claim C2 -/

/-- C2: for every anchor whose quote occurs in the flattened document text,
`Anchor.findMatch` returns the occurrence that is earliest (lowest start
offset) among those attaining the strictly highest prefix+suffix similarity
score: if `qi` is an occurrence whose score no occurrence strictly exceeds
(`score > bestScore` never fires against it) and which strictly beats every
earlier occurrence, then the returned match is exactly the node/offset of
`qi` — a later occurrence with merely equal score never displaces it,
because the comparison is strict. -/
theorem findMatch_first_highest_score (doc : DNode) (a : Anchor) (qi : Nat)
    (hq : a.quote ≠ [])
    (hqi : qi ∈ Anchor.occurrences (Anchor.fullTextOf doc) a.quote)
    (hmax : ∀ j ∈ Anchor.occurrences (Anchor.fullTextOf doc) a.quote,
      Score.ltb (Anchor.scoreAt (Anchor.fullTextOf doc) a.pre a.suf a.quote qi)
        (Anchor.scoreAt (Anchor.fullTextOf doc) a.pre a.suf a.quote j) = false)
    (hbefore : ∀ j ∈ Anchor.occurrences (Anchor.fullTextOf doc) a.quote, j < qi →
      Score.ltb (Anchor.scoreAt (Anchor.fullTextOf doc) a.pre a.suf a.quote j)
        (Anchor.scoreAt (Anchor.fullTextOf doc) a.pre a.suf a.quote qi) = true) :
    ∃ p off, Anchor.findNodeFor (Anchor.nodeMapOf doc) qi = some (p, off) ∧
      Anchor.findMatch doc a = some ⟨p, off, a.quote.length⟩ := by
  obtain ⟨p, off, hnode⟩ := buildNodeMap_covers (Anchor.getTextNodes doc) 0 qi (Nat.zero_le _)
    (by simpa using occ_lt_length _ _ _ hq hqi)
  refine ⟨p, off, hnode, ?_⟩
  rw [Anchor.findMatch_eq doc a hq]
  exact fold_firstArgmax _ _ _ _ _ _ qi hqi (occurrences_sorted _ _) hmax hbefore p off hnode
    _ (ltb_init_scoreAt _ _ _ _ _)

/-- C2 witness: the spec's fox scenario — the first `"fox"` (offset 16) wins
with full context agreement against the later occurrence. -/
theorem findMatch_first_highest_score_witness :
    ∃ p off,
      Anchor.findNodeFor (Anchor.nodeMapOf
        (.elem "BODY" "" [.text "The quick brown fox jumps. The fox runs fast.".data])) 16
        = some (p, off) ∧
      Anchor.findMatch (.elem "BODY" "" [.text "The quick brown fox jumps. The fox runs fast.".data])
        ⟨"fox".data, "brown ".data, " jumps".data⟩ = some ⟨p, off, ("fox".data).length⟩ :=
  findMatch_first_highest_score
    (.elem "BODY" "" [.text "The quick brown fox jumps. The fox runs fast.".data])
    ⟨"fox".data, "brown ".data, " jumps".data⟩ 16 (by decide) (by decide) (by decide) (by decide)

theorem highlightAt_overflow_null (doc : DNode) (m : Anchor.Match) (q : Str) (cls : String)
    (t : Str) (hget : getNode doc m.node = some (.text t))
    (hover : t.length < m.offset + (if m.length = 0 then q.length else m.length)) :
    Anchor.highlightAt doc (some m) q cls = none := by
  by_cases hcls : cls = ""
  · simp [Anchor.highlightAt, hcls]
  · simp only [Anchor.highlightAt, if_neg hcls, hget]
    rw [if_neg (by omega)]

/-! ### Claim C10 -/

/-- C10: every match returned by `Anchor.findMatch` has `length` equal to the
quote's length and `node`/`offset` given by the node-map entry containing the
first character of some occurrence; no check bounds `offset + length` by that
node's text, and whenever the quote overruns the node (`t.length <
offset + length`, as happens when the occurrence spans multiple text nodes)
the subsequent `Anchor.highlightAt` returns `null` instead of highlighting
(the range construction throws and is caught). -/
theorem findMatch_shape_and_overflow (doc : DNode) (a : Anchor) (m : Anchor.Match)
    (h : Anchor.findMatch doc a = some m) :
    m.length = a.quote.length ∧
    (∃ qi ∈ Anchor.occurrences (Anchor.fullTextOf doc) a.quote,
      Anchor.findNodeFor (Anchor.nodeMapOf doc) qi = some (m.node, m.offset)) ∧
    (∀ t : Str, ∀ cls : String, getNode doc m.node = some (.text t) →
      t.length < m.offset + m.length →
      Anchor.highlightAt doc (some m) a.quote cls = none) := by
  have hq : a.quote ≠ [] := by
    intro hq
    rw [(findMatch_absence_null doc a [] "x").1 hq] at h
    exact Option.noConfusion h
  rw [Anchor.findMatch_eq doc a hq] at h
  rcases fold_origin (Anchor.fullTextOf doc) a.pre a.suf a.quote (Anchor.nodeMapOf doc)
      (Anchor.occurrences (Anchor.fullTextOf doc) a.quote) (none, ⟨-1, 1⟩) with
    hnone | ⟨qi, hqi, p, off, hfind, hres⟩
  · rw [h] at hnone
    exact Option.noConfusion hnone
  · rw [h] at hres
    obtain rfl : m = ⟨p, off, a.quote.length⟩ := Option.some.inj hres
    refine ⟨rfl, ⟨qi, hqi, hfind⟩, fun t cls hget hover => ?_⟩
    refine highlightAt_overflow_null doc _ a.quote cls t hget ?_
    have hq0 : a.quote.length ≠ 0 := fun hh => hq (List.eq_nil_of_length_eq_zero hh)
    simp only [] at hover ⊢
    split
    · omega
    · exact hover

/-- C10 witness: quote `"hello"` spans the two text nodes `"hel"`/`"lo"`;
the match points into `"hel"` with length 5, and `highlightAt` yields `null`. -/
theorem findMatch_shape_and_overflow_witness :
    Anchor.findMatch (.elem "BODY" "" [.text "hel".data, .text "lo".data])
      ⟨"hello".data, [], []⟩ = some ⟨[0], 0, 5⟩ ∧
    (5 = ("hello".data).length ∧
      (∃ qi ∈ Anchor.occurrences
        (Anchor.fullTextOf (.elem "BODY" "" [.text "hel".data, .text "lo".data])) "hello".data,
        Anchor.findNodeFor (Anchor.nodeMapOf
          (.elem "BODY" "" [.text "hel".data, .text "lo".data])) qi = some ([0], 0)) ∧
      Anchor.highlightAt (.elem "BODY" "" [.text "hel".data, .text "lo".data])
        (some ⟨[0], 0, 5⟩) "hello".data "hl" = none) := by
  have hfm : Anchor.findMatch (.elem "BODY" "" [.text "hel".data, .text "lo".data])
      ⟨"hello".data, [], []⟩ = some ⟨[0], 0, 5⟩ := by decide
  obtain ⟨h1, h2, h3⟩ := findMatch_shape_and_overflow
    (.elem "BODY" "" [.text "hel".data, .text "lo".data]) ⟨"hello".data, [], []⟩ ⟨[0], 0, 5⟩ hfm
  exact ⟨hfm, h1, h2, h3 "hel".data "hl" (by decide) (by decide)⟩

/-! ### Path lemmas -/

theorem getNode_append (doc : DNode) (p1 p2 : DomPath) :
    getNode doc (p1 ++ p2) = (getNode doc p1).bind (fun n => getNode n p2) := by
  induction p1 generalizing doc with
  | nil => simp [getNode]
  | cons i p1' ih =>
    cases doc with
    | text s => simp [getNode]
    | elem t c cs =>
      simp only [List.cons_append, getNode]
      cases cs[i]? with
      | none => simp
      | some child => simp [ih child]

mutual

theorem collectTextNode_sound : ∀ (c : DNode) (tag : String) (path : DomPath) (i : Nat)
    (q : DomPath) (t : Str), (q, t) ∈ collectTextNode tag path i c →
    ∀ doc : DNode, getNode doc (path ++ [i]) = some c → getNode doc q = some (.text t)
  | .text s, tag, path, i, q, t => by
    intro hmem doc hget
    simp only [collectTextNode] at hmem
    split at hmem
    · simp only [List.mem_singleton, Prod.mk.injEq] at hmem
      obtain ⟨rfl, rfl⟩ := hmem
      exact hget
    · simp at hmem
  | .elem tg cls cs, tag, path, i, q, t => by
    intro hmem doc hget
    simp only [collectTextNode] at hmem
    refine collectTextNodes_sound cs tg (path ++ [i]) 0 q t hmem doc (fun k hk => ?_)
    rw [getNode_append, hget]
    simp [getNode, List.getElem?_eq_getElem hk]

theorem collectTextNodes_sound : ∀ (cs : List DNode) (tag : String) (path : DomPath) (i : Nat)
    (q : DomPath) (t : Str), (q, t) ∈ collectTextNodes tag path i cs →
    ∀ doc : DNode, (∀ k, (hk : k < cs.length) → getNode doc (path ++ [i + k]) = some cs[k]) →
      getNode doc q = some (.text t)
  | [], tag, path, i, q, t => by
    intro hmem
    simp [collectTextNodes] at hmem
  | c :: rest, tag, path, i, q, t => by
    intro hmem doc hall
    simp only [collectTextNodes, List.mem_append] at hmem
    rcases hmem with hl | hr
    · refine collectTextNode_sound c tag path i q t hl doc ?_
      have := hall 0 (by simp)
      simpa using this
    · refine collectTextNodes_sound rest tag path (i + 1) q t hr doc (fun k hk => ?_)
      have := hall (k + 1) (by simpa using Nat.succ_lt_succ hk)
      simp only [List.getElem_cons_succ] at this
      rw [show i + 1 + k = i + (k + 1) by omega]
      exact this

end

theorem getTextNodes_sound (doc : DNode) (q : DomPath) (t : Str)
    (h : (q, t) ∈ Anchor.getTextNodes doc) : getNode doc q = some (.text t) := by
  cases doc with
  | text s => simp [Anchor.getTextNodes] at h
  | elem tg cls cs =>
    refine collectTextNodes_sound cs tg [] 0 q t h _ (fun k hk => ?_)
    simp only [List.nil_append, getNode, Nat.zero_add]
    rw [List.getElem?_eq_getElem hk]

theorem mem_getTextNodes_full (doc : DNode) (p : DomPath) (t : Str)
    (h : (p, t) ∈ Anchor.getTextNodes doc) :
    ∃ A B, Anchor.fullTextOf doc = A ++ t ++ B := by
  obtain ⟨L1, L2, hsplit⟩ := List.append_of_mem h
  refine ⟨joinStr (L1.map Prod.snd), joinStr (L2.map Prod.snd), ?_⟩
  unfold Anchor.fullTextOf
  rw [hsplit]
  simp only [List.map_append, List.map_cons]
  rw [joinStr_append]
  simp [joinStr]

theorem substring_length (t : Str) (a b : Nat) (hab : a ≤ b) (hb : b ≤ t.length) :
    (substring t a b).length = b - a := by
  unfold substring
  simp only [List.length_take, List.length_drop]
  omega

theorem findMatch_isSome_of_occurs (doc : DNode) (a : Anchor) (hq : a.quote ≠ [])
    (qi0 : Nat) (hqi0 : qi0 ∈ Anchor.occurrences (Anchor.fullTextOf doc) a.quote) :
    (Anchor.findMatch doc a).isSome := by
  rw [Anchor.findMatch_eq doc a hq]
  cases hL : Anchor.occurrences (Anchor.fullTextOf doc) a.quote with
  | nil => rw [hL] at hqi0; simp at hqi0
  | cons q0 rest =>
    have hq0 : q0 ∈ Anchor.occurrences (Anchor.fullTextOf doc) a.quote := by
      rw [hL]; exact List.mem_cons_self _ _
    obtain ⟨p, off, hfind⟩ := buildNodeMap_covers (Anchor.getTextNodes doc) 0 q0 (Nat.zero_le _)
      (by simpa using occ_lt_length _ _ _ hq hq0)
    rw [List.foldl_cons, findMatchStep_eq, if_pos (ltb_init_scoreAt _ _ _ _ _)]
    exact foldl_step_isSome _ _ _ _ _ rest _ (by simp [Anchor.nodeMapOf, hfind])

theorem findMatch_returns_occurrence (doc : DNode) (a : Anchor) (hq : a.quote ≠ [])
    (qi0 : Nat) (hqi0 : qi0 ∈ Anchor.occurrences (Anchor.fullTextOf doc) a.quote) :
    ∃ m qi, Anchor.findMatch doc a = some m ∧
      qi ∈ Anchor.occurrences (Anchor.fullTextOf doc) a.quote ∧
      Anchor.findNodeFor (Anchor.nodeMapOf doc) qi = some (m.node, m.offset) ∧
      substring (Anchor.fullTextOf doc) qi (qi + a.quote.length) = a.quote := by
  obtain ⟨m, hm⟩ := Option.isSome_iff_exists.mp (findMatch_isSome_of_occurs doc a hq qi0 hqi0)
  have hm' := hm
  rw [Anchor.findMatch_eq doc a hq] at hm'
  rcases fold_origin (Anchor.fullTextOf doc) a.pre a.suf a.quote (Anchor.nodeMapOf doc)
      (Anchor.occurrences (Anchor.fullTextOf doc) a.quote) (none, ⟨-1, 1⟩) with
    hnone | ⟨qi, hqi, p, off, hfind, hres⟩
  · rw [hm'] at hnone
    exact Option.noConfusion hnone
  · rw [hm'] at hres
    obtain rfl : m = ⟨p, off, a.quote.length⟩ := Option.some.inj hres
    exact ⟨_, qi, hm, hqi, hfind, occ_substring _ _ _ hqi⟩

/-! ### Claim C1 -/

/-- C1 counterexample: on the document `BODY[ text "ab", text "ab" ]`,
selecting the whole second text node serializes to
`{quote:"ab", prefix:"", suffix:""}` (context never crosses the node
boundary backwards here since the selection starts at offset 0), and
`findMatch` — both occurrences scoring 0 with the strict comparison keeping
the first — returns the span in the *first* text node (`node [0]`), not the
original span in node `[1]`: the round trip does not identify the original
span. -/
theorem findMatch_roundtrip_not_original_span :
    Anchor.serializeRange (.elem "BODY" "" [.text "ab".data, .text "ab".data])
      (some ⟨false, "ab".data, [1], 0, [1], 2⟩) 40 = .ok ⟨"ab".data, [], []⟩ ∧
    Anchor.findMatch (.elem "BODY" "" [.text "ab".data, .text "ab".data])
      ⟨"ab".data, [], []⟩ = some ⟨[0], 0, 2⟩ ∧
    ([0] : DomPath) ≠ [1] := by
  exact ⟨rfl, by decide, by decide⟩

/-- C1 (amended): for a non-empty selection `[a, b)` inside a single text
node that the matcher's flattened view contains, serialization yields an
anchor whose quote is exactly the selected text `S`, and `findMatch` on the
unmodified document returns a non-null Match that locates an occurrence of
`S` in the flattened text (the text at the matched position is exactly `S`)
— but, as the counterexample shows, not necessarily the original span. -/
theorem serializeRange_findMatch_relocates_occurrence (doc : DNode) (p : DomPath) (t : Str)
    (a b : Nat) (hmem : (p, t) ∈ Anchor.getTextNodes doc) (hab : a < b) (hb : b ≤ t.length) :
    ∃ anc m qi,
      Anchor.serializeRange doc (some ⟨false, substring t a b, p, a, p, b⟩) 40 = .ok anc ∧
      anc.quote = substring t a b ∧
      Anchor.findMatch doc anc = some m ∧
      qi ∈ Anchor.occurrences (Anchor.fullTextOf doc) anc.quote ∧
      Anchor.findNodeFor (Anchor.nodeMapOf doc) qi = some (m.node, m.offset) ∧
      substring (Anchor.fullTextOf doc) qi (qi + anc.quote.length) = anc.quote := by
  have hget := getTextNodes_sound doc p t hmem
  have hS : substring t a b ≠ [] := by
    have := substring_length t a b (le_of_lt hab) hb
    intro hh
    rw [hh] at this
    simp at this
    omega
  have hser : Anchor.serializeRange doc (some ⟨false, substring t a b, p, a, p, b⟩) 40
      = .ok ⟨substring t a b, lastN (substring t 0 a) 40, (t.drop b).take 40⟩ := by
    simp [Anchor.serializeRange, hS, hget]
  obtain ⟨A, B, hfull⟩ := mem_getTextNodes_full doc p t hmem
  have hqi0 : A.length + a ∈ Anchor.occurrences (Anchor.fullTextOf doc) (substring t a b) := by
    rw [occurrences_mem]
    constructor
    · rw [hfull]
      simp only [List.length_append]
      omega
    · rw [hfull, List.append_assoc, List.isPrefixOf_iff_prefix]
      rw [List.drop_append, List.drop_append_of_le_length (by omega)]
      calc substring t a b <+: t.drop a := by
            unfold substring
            exact List.take_prefix _ _
        _ <+: t.drop a ++ B := List.prefix_append _ _
  obtain ⟨m, qi, hfm, hqi, hfind, hsub⟩ := findMatch_returns_occurrence doc
    ⟨substring t a b, lastN (substring t 0 a) 40, (t.drop b).take 40⟩ hS (A.length + a) hqi0
  exact ⟨_, m, qi, hser, rfl, hfm, hqi, hfind, hsub⟩

/-- C1 (amended) witness. -/
theorem serializeRange_findMatch_relocates_occurrence_witness :
    ∃ anc m qi,
      Anchor.serializeRange (.elem "BODY" "" [.text "hello world".data])
        (some ⟨false, substring "hello world".data 6 11, [0], 6, [0], 11⟩) 40 = .ok anc ∧
      anc.quote = substring "hello world".data 6 11 ∧
      Anchor.findMatch (.elem "BODY" "" [.text "hello world".data]) anc = some m ∧
      qi ∈ Anchor.occurrences (Anchor.fullTextOf (.elem "BODY" "" [.text "hello world".data]))
        anc.quote ∧
      Anchor.findNodeFor (Anchor.nodeMapOf (.elem "BODY" "" [.text "hello world".data])) qi
        = some (m.node, m.offset) ∧
      substring (Anchor.fullTextOf (.elem "BODY" "" [.text "hello world".data])) qi
        (qi + anc.quote.length) = anc.quote :=
  serializeRange_findMatch_relocates_occurrence (.elem "BODY" "" [.text "hello world".data])
    [0] "hello world".data 6 11 (by decide) (by decide) (by decide)

/-! ### Score value lemmas (claim C3) -/

theorem Score.add_val (a b : Score) (ha : 0 < a.den) (hb : 0 < b.den) :
    (Score.add a b).val = a.val + b.val := by
  unfold Score.add Score.val
  have ha' : (a.den : ℚ) ≠ 0 := by positivity
  have hb' : (b.den : ℚ) ≠ 0 := by positivity
  field_simp

theorem countMatches_le_min (x y : Str) : countMatches x y ≤ min x.length y.length := by
  unfold countMatches
  calc (x.zip y).countP _ ≤ (x.zip y).length := List.countP_le_length _
    _ = min x.length y.length := List.length_zip x y

theorem calculateSimilarity_val_nonneg (x y : Str) :
    0 ≤ (Anchor.calculateSimilarity x y).val := by
  unfold Score.val
  have h1 := calculateSimilarity_num_nonneg x y
  have h2 := calculateSimilarity_den_pos x y
  positivity

theorem calculateSimilarity_val_le_one (x y : Str) :
    (Anchor.calculateSimilarity x y).val ≤ 1 := by
  unfold Anchor.calculateSimilarity Score.val
  split
  · norm_num
  · rename_i h
    push_neg at h
    simp only []
    rw [div_le_one (by
      have : 0 < x.length := List.length_pos.mpr h.1
      have : 0 < max x.length y.length := by omega
      exact_mod_cast this)]
    have := countMatches_le_min x y
    have hle : countMatches x y ≤ max x.length y.length := by omega
    exact_mod_cast hle

theorem countMatches_reverse (x y : Str) (h : x.length = y.length) :
    countMatches x.reverse y.reverse = countMatches x y := by
  induction x generalizing y with
  | nil =>
    cases y with
    | nil => rfl
    | cons b ys => simp at h
  | cons a xs ih =>
    cases y with
    | nil => simp at h
    | cons b ys =>
      simp only [List.length_cons] at h
      unfold countMatches
      simp only [List.reverse_cons]
      rw [List.zip_append (by simp; omega), List.countP_append]
      simp only [List.zip_cons_cons, List.countP_cons]
      have := ih ys (by omega)
      unfold countMatches at this
      rw [this]
      simp [List.countP_cons]

theorem component_den_pos (x y : Str) :
    0 < (if x ≠ [] then Anchor.calculateSimilarity y x else ⟨0, 1⟩).den := by
  split
  · exact calculateSimilarity_den_pos _ _
  · exact Nat.one_pos

theorem component_val_mem (x y : Str) :
    0 ≤ (if x ≠ [] then Anchor.calculateSimilarity y x else ⟨0, 1⟩).val ∧
    (if x ≠ [] then Anchor.calculateSimilarity y x else ⟨0, 1⟩).val ≤ 1 := by
  split
  · exact ⟨calculateSimilarity_val_nonneg _ _, calculateSimilarity_val_le_one _ _⟩
  · norm_num [Score.val]

/-! ### Claim C3 -/

/-- C3 counterexample: at an occurrence whose available left context is
shorter than the recorded prefix, the code's score is start-aligned, not
end-aligned.  In `"xab"` with quote `"ab"` (occurrence at 1) and recorded
prefix `"yx"`, the context window is `"x"`; the code compares `'x'` with
`'y'` (offset 0 from the start) and scores `0/2`, while the claim's
end-aligned count compares `'x'` with `'x'` and would score `1/2`. -/
theorem findMatch_score_not_end_aligned :
    substring "xab".data (1 - ("yx".data).length) 1 = "x".data ∧
    Anchor.scoreAt "xab".data "yx".data [] "ab".data 1 = ⟨0, 2⟩ ∧
    Score.add (specEndAlignedSimilarity "x".data "yx".data) ⟨0, 1⟩ = ⟨1, 2⟩ ∧
    Score.val ⟨0, 2⟩ = 0 ∧ Score.val ⟨1, 2⟩ = 1 / 2 ∧ (0 : ℚ) ≠ 1 / 2 := by
  refine ⟨by decide, by decide, by decide, by norm_num [Score.val], by norm_num [Score.val],
    by norm_num⟩

/-- C3 (amended): the score `findMatch` computes for an occurrence is
`prefixScore + suffixScore`, each component the count of position-wise
identical characters between the recorded prefix/suffix and the flattened
text surrounding the occurrence, aligned from the **start** for both —
which coincides with the spec's end-alignment exactly when the two strings
have equal length, in particular whenever the full recorded context is
available — normalized by `max(len(recorded), len(actual))`; each component
lies in [0,1], the total in [0,2], and an absent (empty) prefix or suffix
contributes exactly 0, not a penalty. -/
theorem findMatch_score_decomposition (full pre suf quote : Str) (qi : Nat) :
    (Anchor.scoreAt full pre suf quote qi =
      Score.add
        (if pre ≠ [] then Anchor.calculateSimilarity
          (substring full (qi - pre.length) qi) pre else ⟨0, 1⟩)
        (if suf ≠ [] then Anchor.calculateSimilarity
          (substring full (qi + quote.length) (qi + quote.length + suf.length)) suf
          else ⟨0, 1⟩)) ∧
    (∀ x y : Str, x ≠ [] → y ≠ [] → Anchor.calculateSimilarity x y
      = ⟨countMatches x y, max x.length y.length⟩) ∧
    (∀ x y : Str, 0 ≤ (Anchor.calculateSimilarity x y).val ∧
      (Anchor.calculateSimilarity x y).val ≤ 1) ∧
    (0 ≤ (Anchor.scoreAt full pre suf quote qi).val ∧
      (Anchor.scoreAt full pre suf quote qi).val ≤ 2) ∧
    (Score.val ⟨0, 1⟩ = 0) ∧
    (∀ x y : Str, x.length = y.length →
      Anchor.calculateSimilarity x y = specEndAlignedSimilarity x y) := by
  refine ⟨rfl, ?_, fun x y => ⟨calculateSimilarity_val_nonneg x y,
    calculateSimilarity_val_le_one x y⟩, ?_, by norm_num [Score.val], ?_⟩
  · intro x y hx hy
    unfold Anchor.calculateSimilarity
    rw [if_neg (by simp [hx, hy])]
  · have hval : (Anchor.scoreAt full pre suf quote qi).val =
        (if pre ≠ [] then Anchor.calculateSimilarity
          (substring full (qi - pre.length) qi) pre else ⟨0, 1⟩).val +
        (if suf ≠ [] then Anchor.calculateSimilarity
          (substring full (qi + quote.length) (qi + quote.length + suf.length)) suf
          else ⟨0, 1⟩).val := by
      unfold Anchor.scoreAt
      exact Score.add_val _ _ (component_den_pos _ _) (component_den_pos _ _)
    rw [hval]
    have h1 := component_val_mem pre (substring full (qi - pre.length) qi)
    have h2 := component_val_mem suf
      (substring full (qi + quote.length) (qi + quote.length + suf.length))
    constructor <;> linarith [h1.1, h1.2, h2.1, h2.2]
  · intro x y h
    unfold Anchor.calculateSimilarity specEndAlignedSimilarity
    split
    · rfl
    · rw [countMatches_reverse x y h]

/-- C3 (amended) witness. -/
theorem findMatch_score_decomposition_witness :
    (Anchor.scoreAt "xab".data "yx".data [] "ab".data 1 =
      Score.add
        (if ("yx".data : Str) ≠ [] then Anchor.calculateSimilarity
          (substring "xab".data (1 - ("yx".data).length) 1) "yx".data else ⟨0, 1⟩)
        (if ([] : Str) ≠ [] then Anchor.calculateSimilarity
          (substring "xab".data (1 + ("ab".data).length)
            (1 + ("ab".data).length + ([] : Str).length)) [] else ⟨0, 1⟩)) ∧
    Anchor.calculateSimilarity "ab".data "cb".data
      = ⟨countMatches "ab".data "cb".data, max ("ab".data).length ("cb".data).length⟩ ∧
    Anchor.calculateSimilarity "ab".data "cb".data = specEndAlignedSimilarity "ab".data "cb".data := by
  obtain ⟨h1, h2, -, -, -, h6⟩ := findMatch_score_decomposition "xab".data "yx".data [] "ab".data 1
  exact ⟨h1, h2 "ab".data "cb".data (by decide) (by decide), h6 "ab".data "cb".data (by decide)⟩

/-! ### Chunking lemmas (claim C8) -/

theorem trimStr_length_le (s : Str) : (trimStr s).length ≤ s.length := by
  unfold trimStr
  calc ((s.dropWhile Char.isWhitespace).reverse.dropWhile Char.isWhitespace).reverse.length
      = ((s.dropWhile Char.isWhitespace).reverse.dropWhile Char.isWhitespace).length := by
        rw [List.length_reverse]
    _ ≤ (s.dropWhile Char.isWhitespace).reverse.length := (List.dropWhile_sublist _).length_le
    _ = (s.dropWhile Char.isWhitespace).length := by rw [List.length_reverse]
    _ ≤ s.length := (List.dropWhile_sublist _).length_le

theorem mem_flushChunk (chunks : List Str) (cur c : Str)
    (h : c ∈ Chunking.flushChunk chunks cur) : c ∈ chunks ∨ c = trimStr cur := by
  unfold Chunking.flushChunk at h
  split at h
  · exact Or.inl h
  · rcases List.mem_append.mp h with h1 | h2
    · exact Or.inl h1
    · exact Or.inr (List.mem_singleton.mp h2)

theorem flushChunk_bounded (m : Nat) (chunks : List Str) (cur : Str)
    (h1 : ∀ c ∈ chunks, c.length ≤ m) (h2 : cur.length ≤ m) :
    ∀ c ∈ Chunking.flushChunk chunks cur, c.length ≤ m := by
  intro c hc
  rcases mem_flushChunk chunks cur c hc with h | rfl
  · exact h1 c h
  · exact le_trans (trimStr_length_le cur) h2

theorem hardCutGo_length (fuel : Nat) (w : Str) (m : Nat) :
    ∀ c ∈ Chunking.hardCutGo fuel w m, c.length ≤ m := by
  induction fuel generalizing w with
  | zero => intro c hc; simp [Chunking.hardCutGo] at hc
  | succ fuel ih =>
    intro c hc
    unfold Chunking.hardCutGo at hc
    split at hc
    · simp at hc
    · rcases List.mem_cons.mp hc with rfl | hmem
      · simp [List.length_take_le]
      · exact ih (w.drop m) c hmem

theorem hardCutGo_join (fuel : Nat) (w : Str) (m : Nat) (hm : 1 ≤ m)
    (hfuel : w.length ≤ fuel) : joinStr (Chunking.hardCutGo fuel w m) = w := by
  induction fuel generalizing w with
  | zero =>
    have : w = [] := List.eq_nil_of_length_eq_zero (by omega)
    simp [this, Chunking.hardCutGo, joinStr]
  | succ fuel ih =>
    unfold Chunking.hardCutGo
    split
    · rename_i h
      rcases h with h | h
      · simp [h, joinStr]
      · omega
    · rename_i h
      push_neg at h
      have hne : w ≠ [] := h.1
      simp only [joinStr, List.foldr_cons]
      rw [show List.foldr (· ++ ·) [] (Chunking.hardCutGo fuel (w.drop m) m)
          = joinStr (Chunking.hardCutGo fuel (w.drop m) m) from rfl]
      rw [ih (w.drop m) (by
        have : 0 < w.length := List.length_pos.mpr hne
        simp only [List.length_drop]
        omega)]
      exact List.take_append_drop m w

theorem foldl_preserve {α β : Type} (P : β → Prop) (f : β → α → β)
    (hstep : ∀ st x, P st → P (f st x)) : ∀ (L : List α) (st : β), P st → P (L.foldl f st) := by
  intro L
  induction L with
  | nil => exact fun st h => h
  | cons x t ih => exact fun st h => ih _ (hstep st x h)

theorem splitByWordsStep_bounded (m : Nat) (st : List Str × Str) (word : Str)
    (h : (∀ c ∈ st.1, c.length ≤ m) ∧ st.2.length ≤ m) :
    (∀ c ∈ (Chunking.splitByWordsStep m st word).1, c.length ≤ m) ∧
    (Chunking.splitByWordsStep m st word).2.length ≤ m := by
  obtain ⟨h1, h2⟩ := h
  unfold Chunking.splitByWordsStep
  by_cases hw : word.length > m
  · rw [if_pos hw]
    refine ⟨fun c hc => ?_, by simp⟩
    rcases List.mem_append.mp hc with hm1 | hm2
    · exact flushChunk_bounded m st.1 st.2 h1 h2 c hm1
    · exact hardCutGo_length _ _ _ c hm2
  · rw [if_neg hw]
    push_neg at hw
    by_cases hp : (if st.2 = [] then word else st.2 ++ ' ' :: word).length > m
    · simp only [if_pos hp]
      exact ⟨flushChunk_bounded m st.1 st.2 h1 h2, hw⟩
    · simp only [if_neg hp]
      push_neg at hp
      exact ⟨h1, hp⟩

theorem splitByWords_bounded (text : Str) (m : Nat) :
    ∀ c ∈ Chunking.splitByWords text m, c.length ≤ m := by
  unfold Chunking.splitByWords
  have := foldl_preserve
    (fun st : List Str × Str => (∀ c ∈ st.1, c.length ≤ m) ∧ st.2.length ≤ m)
    (Chunking.splitByWordsStep m) (splitByWordsStep_bounded m)
    (Chunking.splitWS text) ([], []) (by simp)
  exact flushChunk_bounded m _ _ this.1 this.2

theorem splitLargeStep_bounded (m : Nat) (st : List Str × Str) (sentence : Str)
    (h : (∀ c ∈ st.1, c.length ≤ m) ∧ st.2.length ≤ m) :
    (∀ c ∈ (Chunking.splitLargeStep m st sentence).1, c.length ≤ m) ∧
    (Chunking.splitLargeStep m st sentence).2.length ≤ m := by
  obtain ⟨h1, h2⟩ := h
  unfold Chunking.splitLargeStep
  by_cases hw : (trimStr sentence).length > m
  · rw [if_pos hw]
    refine ⟨fun c hc => ?_, by simp⟩
    rcases List.mem_append.mp hc with hm1 | hm2
    · exact flushChunk_bounded m st.1 st.2 h1 h2 c hm1
    · exact splitByWords_bounded _ _ c hm2
  · rw [if_neg hw]
    push_neg at hw
    by_cases hp : (if st.2 = [] then trimStr sentence
        else st.2 ++ ' ' :: trimStr sentence).length > m
    · simp only [if_pos hp]
      exact ⟨flushChunk_bounded m st.1 st.2 h1 h2, hw⟩
    · simp only [if_neg hp]
      push_neg at hp
      exact ⟨h1, hp⟩

theorem splitLargeParagraph_bounded (paragraph : Str) (m : Nat) :
    ∀ c ∈ Chunking.splitLargeParagraph paragraph m, c.length ≤ m := by
  unfold Chunking.splitLargeParagraph
  have := foldl_preserve
    (fun st : List Str × Str => (∀ c ∈ st.1, c.length ≤ m) ∧ st.2.length ≤ m)
    (Chunking.splitLargeStep m) (splitLargeStep_bounded m)
    (match Chunking.sentMatches paragraph with | [] => [paragraph] | l => l) ([], []) (by simp)
  exact flushChunk_bounded m _ _ this.1 this.2

theorem chunkTextStep_bounded (m : Nat) (st : List Str × Str) (paragraph : Str)
    (h : (∀ c ∈ st.1, c.length ≤ m) ∧ st.2.length ≤ m) :
    (∀ c ∈ (Chunking.chunkTextStep m st paragraph).1, c.length ≤ m) ∧
    (Chunking.chunkTextStep m st paragraph).2.length ≤ m := by
  obtain ⟨h1, h2⟩ := h
  unfold Chunking.chunkTextStep
  by_cases hw : (trimStr paragraph).length > m
  · rw [if_pos hw]
    refine ⟨fun c hc => ?_, by simp⟩
    rcases List.mem_append.mp hc with hm1 | hm2
    · exact flushChunk_bounded m st.1 st.2 h1 h2 c hm1
    · exact splitLargeParagraph_bounded _ _ c hm2
  · rw [if_neg hw]
    push_neg at hw
    by_cases hp : (if st.2 = [] then trimStr paragraph
        else st.2 ++ '\n' :: '\n' :: trimStr paragraph).length > m
    · simp only [if_pos hp]
      exact ⟨flushChunk_bounded m st.1 st.2 h1 h2, hw⟩
    · simp only [if_neg hp]
      push_neg at hp
      exact ⟨h1, hp⟩

/-! ### Claim C8 -/

/-- C8: for every input text and positive `maxChars`, each chunk returned by
`Chunking.chunkText` has length at most `maxChars`; and a single token longer
than `maxChars` is hard-cut into consecutive slices at `maxChars` boundaries
— the slices concatenate back to the token and each slice also respects the
budget. -/
theorem chunkText_budget (text w : Str) (maxChars : Nat) (h : 1 ≤ maxChars) :
    (∀ c ∈ Chunking.chunkText text maxChars, c.length ≤ maxChars) ∧
    (maxChars < w.length →
      joinStr (Chunking.hardCut w maxChars) = w ∧
      ∀ c ∈ Chunking.hardCut w maxChars, c.length ≤ maxChars) := by
  constructor
  · unfold Chunking.chunkText
    split
    · simp
    · have := foldl_preserve
        (fun st : List Str × Str => (∀ c ∈ st.1, c.length ≤ maxChars) ∧
          st.2.length ≤ maxChars)
        (Chunking.chunkTextStep maxChars) (chunkTextStep_bounded maxChars)
        ((Chunking.splitParas text).filter (fun p => trimStr p ≠ [])) ([], []) (by simp)
      exact flushChunk_bounded maxChars _ _ this.1 this.2
  · intro _
    exact ⟨hardCutGo_join _ _ _ h (le_refl _), hardCutGo_length _ _ _⟩

/-- C8 witness. -/
theorem chunkText_budget_witness :
    (1 ≤ 3) ∧
    (∀ c ∈ Chunking.chunkText "aa bb c\n\ndd".data 3, c.length ≤ 3) ∧
    (3 < ("abcdefgh".data).length →
      joinStr (Chunking.hardCut "abcdefgh".data 3) = "abcdefgh".data ∧
      ∀ c ∈ Chunking.hardCut "abcdefgh".data 3, c.length ≤ 3) :=
  ⟨by decide, (chunkText_budget "aa bb c\n\ndd".data "abcdefgh".data 3 (by decide)).1,
    (chunkText_budget "aa bb c\n\ndd".data "abcdefgh".data 3 (by decide)).2⟩

/-! ### Highlight mutation lemmas (claims C4 and C5) -/

theorem highlightAt_some_inv (doc : DNode) (mt : Anchor.Match) (q : Str) (cls : String)
    (doc1 : DNode) (mk : Marker)
    (h : Anchor.highlightAt doc (some mt) q cls = some (doc1, mk)) :
    cls ≠ "" ∧ ∃ t : Str, getNode doc mt.node = some (.text t) ∧
      mt.offset + (if mt.length = 0 then q.length else mt.length) ≤ t.length ∧
      spliceAt doc mt.node
        [.text (t.take mt.offset),
         .elem "SPAN" cls [.text (substring t mt.offset
           (mt.offset + (if mt.length = 0 then q.length else mt.length)))],
         .text (t.drop (mt.offset + (if mt.length = 0 then q.length else mt.length)))]
        = some doc1 ∧
      mk = ⟨.elem "SPAN" cls [.text (substring t mt.offset
           (mt.offset + (if mt.length = 0 then q.length else mt.length)))],
        some (mt.node.dropLast ++ [mt.node.getLast?.getD 0 + 1])⟩ := by
  by_cases hcls : cls = ""
  · simp [Anchor.highlightAt, hcls] at h
  · refine ⟨hcls, ?_⟩
    simp only [Anchor.highlightAt, if_neg hcls] at h
    cases hget : getNode doc mt.node with
    | none => rw [hget] at h; exact Option.noConfusion h
    | some n =>
      cases n with
      | elem t c cs => rw [hget] at h; exact Option.noConfusion h
      | text t =>
        rw [hget] at h
        simp only [] at h
        by_cases hb : mt.offset + (if mt.length = 0 then q.length else mt.length) ≤ t.length
        · rw [if_pos hb] at h
          refine ⟨t, rfl, hb, ?_⟩
          cases hsp : spliceAt doc mt.node
            [.text (t.take mt.offset),
             .elem "SPAN" cls [.text (substring t mt.offset
               (mt.offset + (if mt.length = 0 then q.length else mt.length)))],
             .text (t.drop (mt.offset + (if mt.length = 0 then q.length else mt.length)))] with
          | none => rw [hsp] at h; exact Option.noConfusion h
          | some d =>
            rw [hsp] at h
            obtain ⟨h1, h2⟩ := Prod.mk.injEq .. ▸ Option.some.inj h
            exact ⟨h1 ▸ rfl, h2 ▸ rfl⟩
        · rw [if_neg hb] at h
          exact Option.noConfusion h

theorem spliceAt_parent (q : DomPath) (doc : DNode) (j : Nat) (repl : List DNode) (doc' : DNode)
    (h : spliceAt doc (q ++ [j]) repl = some doc') :
    ∃ t c cs, getNode doc q = some (.elem t c cs) ∧ j < cs.length ∧
      getNode doc' q = some (.elem t c (cs.take j ++ repl ++ cs.drop (j + 1))) := by
  induction q generalizing doc doc' with
  | nil =>
    cases doc with
    | text s => simp [spliceAt] at h
    | elem t c cs =>
      simp only [List.nil_append, spliceAt] at h
      by_cases hj : j < cs.length
      · rw [if_pos hj] at h
        exact ⟨t, c, cs, rfl, hj, by rw [getNode, ← Option.some.inj h]⟩
      · rw [if_neg hj] at h
        exact Option.noConfusion h
  | cons i q' ih =>
    obtain ⟨a, as, hq2⟩ : ∃ a as, q' ++ [j] = a :: as := by
      cases hq2 : q' ++ [j] with
      | nil => simp at hq2
      | cons a as => exact ⟨a, as, rfl⟩
    cases doc with
    | text s => simp [spliceAt] at h
    | elem t c cs =>
      rw [List.cons_append, hq2] at h
      simp only [spliceAt] at h
      rcases hcs : cs[i]? with - | child
      · rw [hcs] at h
        exact Option.noConfusion h
      · rw [hcs] at h
        obtain ⟨child', hsp, hdoc'⟩ := Option.map_eq_some'.mp h
        rw [← hq2] at hsp
        obtain ⟨t', c', cs', hg, hj, hg'⟩ := ih child child' hsp
        refine ⟨t', c', cs', ?_, hj, ?_⟩
        · simp [getNode, hcs, hg]
        · have hset : (cs.set i child')[i]? = some child' := by
            rw [List.getElem?_set_self', hcs]
            rfl
          rw [← hdoc']
          simp [getNode, hset, hg']

theorem getNode_elem_child (doc' : DNode) (q : DomPath) (t c : String) (cs' : List DNode)
    (j' : Nat) (h : getNode doc' q = some (.elem t c cs')) :
    getNode doc' (q ++ [j']) = cs'[j']? := by
  rw [getNode_append, h]
  simp only [Option.some_bind, getNode]
  cases cs'[j']? <;> simp

theorem spliceAt_ne_nil (doc : DNode) (repl : List DNode) (doc' : DNode)
    (h : spliceAt doc [] repl = some doc') : False := by
  simp [spliceAt] at h

/-! ### Claim C4 -/

/-- C4 counterexample: `highlightAt` (content-script version) has no
already-highlighted detection.  Highlighting `"hello"` in a fresh document
succeeds; calling `highlightAt` again with the *same* match returns `null`
— the original text node was truncated to the text before the span, so the
range construction overruns it — not the same Marker. -/
theorem highlightAt_twice_not_same_marker :
    Anchor.highlightAt (.elem "BODY" "" [.text "hello".data]) (some ⟨[0], 0, 5⟩)
      "hello".data "hl"
      = some (.elem "BODY" "" [.text [], .elem "SPAN" "hl" [.text "hello".data], .text []],
          ⟨.elem "SPAN" "hl" [.text "hello".data], some [1]⟩) ∧
    Anchor.highlightAt (.elem "BODY" "" [.text [], .elem "SPAN" "hl" [.text "hello".data],
      .text []]) (some ⟨[0], 0, 5⟩) "hello".data "hl" = none := by
  exact ⟨by decide, by decide⟩

/-- C4 (amended): a second `highlightAt` with the same match (of non-zero
effective length) returns `null` rather than the same Marker: after the
first call the matched node retains only the text before the span, so the
second range construction fails and is caught — hence exactly one Marker is
ever produced, but not by detection and re-return. -/
theorem highlightAt_second_call_null (doc : DNode) (mt : Anchor.Match) (q : Str) (cls : String)
    (doc1 : DNode) (mk : Marker)
    (h : Anchor.highlightAt doc (some mt) q cls = some (doc1, mk))
    (hlen : mt.length ≠ 0 ∨ q ≠ []) :
    Anchor.highlightAt doc1 (some mt) q cls = none := by
  obtain ⟨hcls, t, hget, hble, hsp, hmk⟩ := highlightAt_some_inv doc mt q cls doc1 mk h
  obtain ⟨q', j, hnode⟩ : ∃ q' j, mt.node = q' ++ [j] := by
    rcases List.eq_nil_or_concat mt.node with hnil | ⟨q', j, hcat⟩
    · rw [hnil] at hsp
      exact absurd hsp (fun hh => spliceAt_ne_nil _ _ _ hh)
    · exact ⟨q', j, hcat ▸ List.concat_eq_append _ _ ▸ rfl⟩
  rw [hnode] at hsp
  obtain ⟨tg, cl, cs, hgq, hj, hgq'⟩ := spliceAt_parent q' doc j _ doc1 hsp
  have hchild : getNode doc1 (q' ++ [j]) = some (.text (t.take mt.offset)) := by
    rw [getNode_elem_child doc1 q' tg cl _ j hgq']
    rw [List.append_assoc]
    rw [List.getElem?_append_right (by simp [List.length_take])]
    simp [List.length_take, Nat.min_eq_left (le_of_lt hj)]
  have hlen0 : (if mt.length = 0 then q.length else mt.length) ≠ 0 := by
    rcases hlen with h1 | h1
    · simp [h1]
    · split
      · have := List.length_pos.mpr h1
        omega
      · assumption
  have hoff : mt.offset ≤ t.length := le_trans (Nat.le_add_right _ _) hble
  refine highlightAt_overflow_null doc1 mt q cls (t.take mt.offset) (hnode ▸ hchild) ?_
  rw [List.length_take, Nat.min_eq_left hoff]
  omega

/-- C4 (amended) witness. -/
theorem highlightAt_second_call_null_witness :
    Anchor.highlightAt (.elem "BODY" "" [.text [], .elem "SPAN" "hl" [.text "hello".data],
      .text []]) (some ⟨[0], 0, 5⟩) "hello".data "hl" = none :=
  highlightAt_second_call_null (.elem "BODY" "" [.text "hello".data]) ⟨[0], 0, 5⟩
    "hello".data "hl"
    (.elem "BODY" "" [.text [], .elem "SPAN" "hl" [.text "hello".data], .text []])
    ⟨.elem "SPAN" "hl" [.text "hello".data], some [1]⟩ (by decide) (Or.inl (by decide))

/-! ### Normalization preserves text content (claim C5) -/

theorem mkTextCons_textContent (s : Str) (l : List DNode) :
    textContentList (mkTextCons s l) = s ++ textContentList l := by
  unfold mkTextCons
  split
  · rename_i h
    rw [h]
    rfl
  · rfl

theorem mergeTextRuns_textContent (l : List DNode) :
    textContentList (mergeTextRuns l) = textContentList l := by
  induction l with
  | nil => rfl
  | cons hd rest ih =>
    cases hd with
    | elem t c cs =>
      simp only [mergeTextRuns, textContentList, ih]
    | text s =>
      simp only [mergeTextRuns]
      cases hm : mergeTextRuns rest with
      | nil =>
        rw [hm] at ih
        simp only [mkTextCons_textContent, textContentList]
        rw [← ih]
        simp [textContentList]
        rfl
      | cons hd2 tl =>
        cases hd2 with
        | text s2 =>
          rw [hm] at ih
          simp only [mkTextCons_textContent, textContentList] at ih ⊢
          rw [← ih]
          simp [textContent]
        | elem t2 c2 cs2 =>
          rw [hm] at ih
          simp only [mkTextCons_textContent, textContentList] at ih ⊢
          rw [← ih]
          rfl

mutual

theorem normalizeNode_textContent : ∀ n : DNode, textContent (normalizeNode n) = textContent n
  | .text s => rfl
  | .elem t c cs => by
    simp only [normalizeNode, textContent, mergeTextRuns_textContent]
    exact normalizeNodeList_textContent cs

theorem normalizeNodeList_textContent :
    ∀ l : List DNode, textContentList (normalizeNodeList l) = textContentList l
  | [] => rfl
  | c :: rest => by
    simp only [normalizeNodeList, textContentList]
    rw [normalizeNode_textContent c, normalizeNodeList_textContent rest]

end

theorem textContentList_split (cs : List DNode) (j : Nat) (h : j < cs.length) :
    textContentList cs = textContentList (cs.take j) ++ textContent cs[j]
      ++ textContentList (cs.drop (j + 1)) := by
  conv_lhs => rw [← List.take_append_drop j cs]
  rw [textContentList_append, List.drop_eq_getElem_cons h]
  simp only [textContentList]
  rw [List.append_assoc]

theorem textContentList_set (cs : List DNode) (j : Nat) (x : DNode) (h : j < cs.length) :
    textContentList (cs.set j x) = textContentList (cs.take j) ++ textContent x
      ++ textContentList (cs.drop (j + 1)) := by
  rw [List.set_eq_take_append_cons_drop, if_pos h, textContentList_append]
  simp only [textContentList]
  rw [List.append_assoc]

theorem removeAt_textContent (p : DomPath) (doc doc' : DNode)
    (h : removeAt doc p = some doc') : textContent doc' = textContent doc := by
  induction p generalizing doc doc' with
  | nil => simp [removeAt] at h
  | cons i p' ih =>
    cases p' with
    | nil =>
      cases doc with
      | text s => simp [removeAt] at h
      | elem t c cs =>
        simp only [removeAt] at h
        rcases hcs : cs[i]? with - | child
        · rw [hcs] at h
          exact Option.noConfusion h
        · rw [hcs] at h
          cases child with
          | text s2 => exact Option.noConfusion h
          | elem t2 c2 sc =>
            obtain rfl : normalizeNode (.elem t c (cs.take i ++ sc ++ cs.drop (i + 1)))
                = doc' := Option.some.inj h
            obtain ⟨hi, hval⟩ := List.getElem?_eq_some_iff.mp hcs
            rw [normalizeNode_textContent]
            show textContentList (cs.take i ++ sc ++ cs.drop (i + 1)) = textContent (.elem t c cs)
            rw [textContentList_append, textContentList_append]
            show _ = textContentList cs
            rw [textContentList_split cs i hi, hval]
            rfl
    | cons b bs =>
      cases doc with
      | text s => simp [removeAt] at h
      | elem t c cs =>
        simp only [removeAt] at h
        rcases hcs : cs[i]? with - | child
        · rw [hcs] at h
          exact Option.noConfusion h
        · rw [hcs] at h
          obtain ⟨child', hrec, rfl⟩ := Option.map_eq_some'.mp h
          obtain ⟨hi, hval⟩ := List.getElem?_eq_some_iff.mp hcs
          show textContentList (cs.set i child') = textContent (.elem t c cs)
          rw [textContentList_set cs i child' hi]
          show _ = textContentList cs
          rw [textContentList_split cs i hi, hval, ih child child' hrec]

theorem spliceAt_textContent (p : DomPath) (doc doc' : DNode) (repl : List DNode)
    (h : spliceAt doc p repl = some doc') :
    ∃ old, getNode doc p = some old ∧
      ∃ A B, textContent doc = A ++ textContent old ++ B ∧
        textContent doc' = A ++ textContentList repl ++ B := by
  induction p generalizing doc doc' with
  | nil => simp [spliceAt] at h
  | cons i p' ih =>
    cases p' with
    | nil =>
      cases doc with
      | text s => simp [spliceAt] at h
      | elem t c cs =>
        simp only [spliceAt] at h
        by_cases hi : i < cs.length
        · rw [if_pos hi] at h
          obtain rfl : DNode.elem t c (cs.take i ++ repl ++ cs.drop (i + 1)) = doc' :=
            Option.some.inj h
          refine ⟨cs[i], by simp [getNode, List.getElem?_eq_getElem hi],
            textContentList (cs.take i), textContentList (cs.drop (i + 1)), ?_, ?_⟩
          · show textContentList cs = _
            rw [textContentList_split cs i hi]
          · show textContentList (cs.take i ++ repl ++ cs.drop (i + 1)) = _
            rw [textContentList_append, textContentList_append]
        · rw [if_neg hi] at h
          exact Option.noConfusion h
    | cons b bs =>
      cases doc with
      | text s => simp [spliceAt] at h
      | elem t c cs =>
        simp only [spliceAt] at h
        rcases hcs : cs[i]? with - | child
        · rw [hcs] at h
          exact Option.noConfusion h
        · rw [hcs] at h
          obtain ⟨child', hrec, rfl⟩ := Option.map_eq_some'.mp h
          obtain ⟨hi, hval⟩ := List.getElem?_eq_some_iff.mp hcs
          obtain ⟨old, hold, A, B, hA, hB⟩ := ih child child' hrec
          refine ⟨old, by simp only [getNode, hcs]; exact hold,
            textContentList (cs.take i) ++ A, B ++ textContentList (cs.drop (i + 1)), ?_, ?_⟩
          · show textContentList cs = _
            rw [textContentList_split cs i hi, hval, hA]
            simp [List.append_assoc]
          · show textContentList (cs.set i child') = _
            rw [textContentList_set cs i child' hi, hB]
            simp [List.append_assoc]

theorem removeAt_succeeds (q : DomPath) (doc : DNode) (j : Nat) (tg c : String)
    (cs : List DNode) (tg2 c2 : String) (sc : List DNode)
    (hq : getNode doc q = some (.elem tg c cs)) (hj : cs[j]? = some (.elem tg2 c2 sc)) :
    ∃ doc2, removeAt doc (q ++ [j]) = some doc2 := by
  induction q generalizing doc with
  | nil =>
    obtain rfl : doc = DNode.elem tg c cs := Option.some.inj hq
    exact ⟨normalizeNode (.elem tg c (cs.take j ++ sc ++ cs.drop (j + 1))), by
      simp only [List.nil_append, removeAt, hj]⟩
  | cons i q' ih =>
    obtain ⟨a, as, hq2⟩ : ∃ a as, q' ++ [j] = a :: as := by
      cases hq2 : q' ++ [j] with
      | nil => simp at hq2
      | cons a as => exact ⟨a, as, rfl⟩
    cases doc with
    | text s => simp [getNode] at hq
    | elem t0 c0 cs0 =>
      simp only [getNode] at hq
      rcases hcs0 : cs0[i]? with - | child
      · rw [hcs0] at hq
        exact Option.noConfusion hq
      · rw [hcs0] at hq
        obtain ⟨child2, hrec⟩ := ih child hq
        rw [hq2] at hrec
        refine ⟨DNode.elem t0 c0 (cs0.set i child2), ?_⟩
        rw [List.cons_append, hq2]
        simp only [removeAt, hcs0, hrec, Option.map_some']

/-! ### Claim C5 -/

/-- C5 counterexample: the round trip is not flattened-text-preserving on
every document.  With a whitespace-only text node adjacent to the target
node, `removeHighlight`'s `normalize()` merges it into its neighbour, so the
matcher's flattened view (which skips whitespace-only nodes) changes from
`"xt"` to `" xt"` even though no characters were lost.  (The second-removal
part of the claim does hold; see the amended theorem.) -/
theorem removeHighlight_flattened_text_changed :
    Anchor.highlightAt (.elem "BODY" "" [.text " ".data, .text "xt".data])
      (some ⟨[1], 1, 1⟩) "t".data "hl"
      = some (.elem "BODY" "" [.text " ".data, .text "x".data,
          .elem "SPAN" "hl" [.text "t".data], .text []],
          ⟨.elem "SPAN" "hl" [.text "t".data], some [2]⟩) ∧
    Anchor.removeHighlight (.elem "BODY" "" [.text " ".data, .text "x".data,
        .elem "SPAN" "hl" [.text "t".data], .text []])
      ⟨.elem "SPAN" "hl" [.text "t".data], some [2]⟩
      = (true, .elem "BODY" "" [.text " xt".data],
         ⟨.elem "SPAN" "hl" [.text "t".data], none⟩) ∧
    Anchor.fullTextOf (.elem "BODY" "" [.text " xt".data]) = " xt".data ∧
    Anchor.fullTextOf (.elem "BODY" "" [.text " ".data, .text "xt".data]) = "xt".data ∧
    (" xt".data : Str) ≠ "xt".data := by
  exact ⟨by decide, by decide, by decide, by decide, by decide⟩

/-- C5 (amended): `removeHighlight` after `highlightAt` returns `true` and
restores the document's full text content (`textContent` — the concatenation
of *all* text node data) byte-identically: only the marker wrapper is
removed, no character is lost or duplicated.  (The matcher's
whitespace-filtered flattened view can still change, per the
counterexample.)  A second `removeHighlight` on the same, now-detached
marker returns `false` without throwing. -/
theorem removeHighlight_restores_textContent (doc : DNode) (m : Option Anchor.Match)
    (q : Str) (cls : String) (doc1 : DNode) (mk : Marker)
    (h : Anchor.highlightAt doc m q cls = some (doc1, mk)) :
    (Anchor.removeHighlight doc1 mk).1 = true ∧
    textContent (Anchor.removeHighlight doc1 mk).2.1 = textContent doc ∧
    (Anchor.removeHighlight (Anchor.removeHighlight doc1 mk).2.1
      (Anchor.removeHighlight doc1 mk).2.2).1 = false := by
  cases m with
  | none => simp [Anchor.highlightAt] at h
  | some mt =>
    obtain ⟨hcls, t, hget, hble, hsp, hmk⟩ := highlightAt_some_inv doc mt q cls doc1 mk h
    obtain ⟨q', j, hnode⟩ : ∃ q' j, mt.node = q' ++ [j] := by
      rcases List.eq_nil_or_concat mt.node with hnil | ⟨q', j, hcat⟩
      · rw [hnil] at hsp
        exact absurd hsp (fun hh => spliceAt_ne_nil _ _ _ hh)
      · exact ⟨q', j, hcat ▸ List.concat_eq_append _ _ ▸ rfl⟩
    rw [hnode] at hsp
    obtain ⟨tg, cl, cs, hgq, hj, hgq'⟩ := spliceAt_parent q' doc j _ doc1 hsp
    have hmp : mt.node.dropLast ++ [mt.node.getLast?.getD 0 + 1] = q' ++ [j + 1] := by
      rw [hnode]
      simp [List.getLast?_concat]
    have hspan : (cs.take j ++
        [DNode.text (t.take mt.offset),
         DNode.elem "SPAN" cls [.text (substring t mt.offset
           (mt.offset + (if mt.length = 0 then q.length else mt.length)))],
         DNode.text (t.drop (mt.offset + (if mt.length = 0 then q.length else mt.length)))]
        ++ cs.drop (j + 1))[j + 1]? = some (DNode.elem "SPAN" cls
          [.text (substring t mt.offset
            (mt.offset + (if mt.length = 0 then q.length else mt.length)))]) := by
      rw [List.append_assoc, List.getElem?_append_right (by simp [List.length_take])]
      simp [List.length_take, Nat.min_eq_left (le_of_lt hj)]
    obtain ⟨doc2, hrm⟩ := removeAt_succeeds q' doc1 (j + 1) tg cl _ "SPAN" cls _ hgq' hspan
    have hpar : mk.parent = some (q' ++ [j + 1]) := by
      rw [hmk]
      simp [hmp]
    have hre : Anchor.removeHighlight doc1 mk = (true, doc2, ⟨mk.node, none⟩) := by
      unfold Anchor.removeHighlight
      rw [hpar]
      simp only [hrm]
    rw [hre]
    refine ⟨rfl, ?_, rfl⟩
    have h1 : textContent doc2 = textContent doc1 := removeAt_textContent _ _ _ hrm
    obtain ⟨old, hold, A, B, hA, hB⟩ := spliceAt_textContent (q' ++ [j]) doc doc1 _ hsp
    have hto : old = .text t := by
      rw [hnode] at hget
      rw [hget] at hold
      exact (Option.some.inj hold).symm
    subst hto
    have hrepl : textContentList
        [DNode.text (t.take mt.offset),
         DNode.elem "SPAN" cls [.text (substring t mt.offset
           (mt.offset + (if mt.length = 0 then q.length else mt.length)))],
         DNode.text (t.drop (mt.offset + (if mt.length = 0 then q.length else mt.length)))]
        = t := by
      simp only [textContentList, textContent, List.append_nil]
      unfold substring
      rw [show mt.offset + (if mt.length = 0 then q.length else mt.length) - mt.offset
          = (if mt.length = 0 then q.length else mt.length) by omega]
      rw [show t.drop (mt.offset + (if mt.length = 0 then q.length else mt.length))
          = (t.drop mt.offset).drop (if mt.length = 0 then q.length else mt.length) from by
        rw [List.drop_drop]]
      rw [List.take_append_drop, List.take_append_drop]
    show textContent doc2 = textContent doc
    rw [h1, hB, hA, hrepl]
    rfl

/-- C5 (amended) witness. -/
theorem removeHighlight_restores_textContent_witness :
    (Anchor.removeHighlight
      (.elem "BODY" "" [.text [], .elem "SPAN" "hl" [.text "hello".data], .text []])
      ⟨.elem "SPAN" "hl" [.text "hello".data], some [1]⟩).1 = true ∧
    textContent (Anchor.removeHighlight
      (.elem "BODY" "" [.text [], .elem "SPAN" "hl" [.text "hello".data], .text []])
      ⟨.elem "SPAN" "hl" [.text "hello".data], some [1]⟩).2.1
      = textContent (.elem "BODY" "" [.text "hello".data]) ∧
    (Anchor.removeHighlight
      (Anchor.removeHighlight
        (.elem "BODY" "" [.text [], .elem "SPAN" "hl" [.text "hello".data], .text []])
        ⟨.elem "SPAN" "hl" [.text "hello".data], some [1]⟩).2.1
      (Anchor.removeHighlight
        (.elem "BODY" "" [.text [], .elem "SPAN" "hl" [.text "hello".data], .text []])
        ⟨.elem "SPAN" "hl" [.text "hello".data], some [1]⟩).2.2).1 = false :=
  removeHighlight_restores_textContent (.elem "BODY" "" [.text "hello".data])
    (some ⟨[0], 0, 5⟩) "hello".data "hl"
    (.elem "BODY" "" [.text [], .elem "SPAN" "hl" [.text "hello".data], .text []])
    ⟨.elem "SPAN" "hl" [.text "hello".data], some [1]⟩ (by decide)
